import Mathlib

set_option autoImplicit false

/-!
# Verification of the askexperts-coder TypeScript indexing engine

A shallow embedding of the engine's core algorithms, translated from
`src/indexer/typescript/TypeScript.ts` and its utility module:

* stable symbol identity: `getDeclarationHeader`, `normalizeHeaderText`,
  `hashHeader`, `buildStableId`, `resolveStableId`, `createSymbolIdHash`,
  `equalStableId`;
* the access-path finder `pathsTo` with its BFS over member graphs and the
  ranker `rankPaths`;
* the related-type extractor `related` with its deep type-node and
  value-expression walks and the engine-level recursion-tracking state.

Machine-level collaborators (the TypeScript checker, the file system, the
SHA-256 digest from `@noble/hashes`) are modelled as explicit data: the
checker becomes a finite semantic model, file text becomes strings with
recorded node positions, and the digest is idealized as an injective
encoding (the spec explicitly treats hash collisions as an accepted
non-case), represented by the message itself.
-/

namespace Spec2Proof

/-! ## Syntactic kinds

The subset of `ts.SyntaxKind` the engine inspects.  The engine stores kinds
as their enum *names* (`ts.SyntaxKind[decl.kind]`); `kindName` renders the
same names. -/

inductive DKind where
  | sourceFile
  | classDecl
  | classExpr
  | interfaceDecl
  | enumDecl
  | typeAlias
  | functionDecl
  | methodDecl
  | methodSig
  | ctorDecl
  | callSig
  | constructSig
  | getAccessor
  | setAccessor
  | propertyDecl
  | propertySig
  | indexSig
  | propertyAssignment
  | shorthandPropertyAssignment
  | enumMember
  | variableDecl
  | moduleDecl
  | arrowFn
  | funcExpr
  | exportSpecifier
  | exportAssignment
  | typeLiteral
  | bindingElement
  | paramDecl
  | jsdocTypedef
  | otherKind
  deriving DecidableEq, Repr

def kindName : DKind → String
  | .sourceFile => "SourceFile"
  | .classDecl => "ClassDeclaration"
  | .classExpr => "ClassExpression"
  | .interfaceDecl => "InterfaceDeclaration"
  | .enumDecl => "EnumDeclaration"
  | .typeAlias => "TypeAliasDeclaration"
  | .functionDecl => "FunctionDeclaration"
  | .methodDecl => "MethodDeclaration"
  | .methodSig => "MethodSignature"
  | .ctorDecl => "Constructor"
  | .callSig => "CallSignature"
  | .constructSig => "ConstructSignature"
  | .getAccessor => "GetAccessor"
  | .setAccessor => "SetAccessor"
  | .propertyDecl => "PropertyDeclaration"
  | .propertySig => "PropertySignature"
  | .indexSig => "IndexSignature"
  | .propertyAssignment => "PropertyAssignment"
  | .shorthandPropertyAssignment => "ShorthandPropertyAssignment"
  | .enumMember => "EnumMember"
  | .variableDecl => "VariableDeclaration"
  | .moduleDecl => "ModuleDeclaration"
  | .arrowFn => "ArrowFunction"
  | .funcExpr => "FunctionExpression"
  | .exportSpecifier => "ExportSpecifier"
  | .exportAssignment => "ExportAssignment"
  | .typeLiteral => "TypeLiteral"
  | .bindingElement => "BindingElement"
  | .paramDecl => "Parameter"
  | .jsdocTypedef => "JSDocTypedefTag"
  | .otherKind => "Unknown"

/-! ## Name nodes

Declaration name nodes as `declName` distinguishes them: identifiers,
string/numeric literals and computed property names. -/

inductive NameNode where
  | ident (s : String)
  | strLit (s : String)
  | numLit (s : String)
  | computedIdent (s : String)
  | computedOther (text : String)
  deriving DecidableEq, Repr

/-- `node.text` for a name node (literal text without quotes). -/
def NameNode.text : NameNode → String
  | .ident s => s
  | .strLit s => s
  | .numLit s => s
  | .computedIdent s => s
  | .computedOther t => t

/-- `node.getText(sf)` for a name node (source text, string literals keep
their quotes). -/
def NameNode.getText : NameNode → String
  | .ident s => s
  | .strLit s => "\"" ++ s ++ "\""
  | .numLit s => s
  | .computedIdent s => "[" ++ s ++ "]"
  | .computedOther t => "[" ++ t ++ "]"

/-! ## Syntax nodes

A declaration node records the positions `getDeclarationHeader` slices at:
`start` (`getStart(sf)`), `fullStart` (`getStart(sf, true)`), `endP`
(`decl.end`), the member-list position for class-likes, the body position
for block-bodied function-likes, the `=>` position for arrows, and the
initializer position for object-literal initializers.  `hasSymbol` models
whether the checker can derive a symbol for the node
(`symbolFromTarget`). -/

structure SInfo where
  kind : DKind
  nameNode : Option NameNode := none
  start : Nat := 0
  fullStart : Nat := 0
  endP : Nat := 0
  membersPos : Nat := 0
  aliasTypeIsLiteral : Bool := false
  aliasTypeStart : Nat := 0
  hasBlockBody : Bool := false
  bodyPos : Nat := 0
  arrowPos : Nat := 0
  initIsObjectLit : Bool := false
  initIsArrow : Bool := false
  initIsFuncExprBlock : Bool := false
  initStart : Nat := 0
  indexParamName : Option String := none
  hasSymbol : Bool := true
  deriving DecidableEq, Repr

inductive SNode where
  | node (info : SInfo) (children : List SNode)

def SNode.info : SNode → SInfo
  | .node i _ => i

def SNode.children : SNode → List SNode
  | .node _ cs => cs

/-- One project source file: its project-relative path, full text, whether
it is a declaration (`.d.ts`) file, and its AST (a `sourceFile` root whose
children are the top-level statements). -/
structure SFile where
  path : String
  text : String
  isDeclFile : Bool := false
  root : SNode

/-- The `ts.Program` as the stable-identity functions see it: the list of
project source files. -/
structure SProgram where
  files : List SFile

/-! ## String helpers (JS semantics) -/

/-- `String.prototype.slice(a, b)` (clamped, empty when `b ≤ a`). -/
def sliceStr (s : String) (a b : Nat) : String :=
  (((s.toList).drop a).take (b - a)).asString

/-- `String.prototype.indexOf(c, start)`: absolute index of the first
occurrence of `c` at or after `start`, `-1` when absent. -/
def indexOfFrom (s : String) (c : Char) (start : Nat) : Int :=
  match ((s.toList).drop start).findIdx? (· = c) with
  | some i => (start + i : Nat)
  | none => -1

/-! ## Header normalization (`normalizeHeaderText`)

The source strips `/* ... */` comments (non-greedy global regex), then
`//`-to-end-of-line comments anchored at line start or after whitespace,
then collapses all whitespace runs to single spaces and trims. -/

/-- Scan past a block comment: drop characters up to and including the
first `*/`; `none` when the comment is unterminated (the regex then has no
match and the text is kept). -/
def dropUntilClose : List Char → Option (List Char)
  | [] => none
  | [_] => none
  | a :: b :: rest => if a = '*' ∧ b = '/' then some rest else dropUntilClose (b :: rest)

theorem dropUntilClose_length (l : List Char) :
    ∀ r, dropUntilClose l = some r → r.length ≤ l.length := by
  induction l with
  | nil => intro r h; simp [dropUntilClose] at h
  | cons a t ih =>
    intro r h
    cases t with
    | nil => simp [dropUntilClose] at h
    | cons b rest =>
      rw [dropUntilClose] at h
      split at h
      · cases h; simp; omega
      · have := ih r h
        simp at this ⊢
        omega

/-- Remove `/* ... */` comments, mirroring the global non-greedy regex
replacement.  Structural recursion on a fuel counter (each step consumes
at least one character, so `length + 1` fuel never runs out; this keeps
the function kernel-reducible). -/
def stripBlockCommentsF : Nat → List Char → List Char
  | 0, cs => cs
  | fuel + 1, cs =>
    match cs with
    | '/' :: '*' :: rest =>
      match dropUntilClose rest with
      | some rest2 => stripBlockCommentsF fuel rest2
      | none => '/' :: '*' :: rest
    | c :: rest => c :: stripBlockCommentsF fuel rest
    | [] => []

def stripBlockComments (cs : List Char) : List Char :=
  stripBlockCommentsF (cs.length + 1) cs

/-- JS `String.prototype.trim` on a character list (implemented directly
over lists so that proofs can evaluate it by kernel reduction). -/
def trimChars (l : List Char) : List Char :=
  ((l.dropWhile Char.isWhitespace).reverse.dropWhile Char.isWhitespace).reverse

def jsTrim (s : String) : String := (trimChars s.toList).asString

/-- Split a character list at every character satisfying `p` (separators
dropped, empty runs kept — mirrors `String.split`). -/
def splitChars (p : Char → Bool) : List Char → List (List Char)
  | [] => [[]]
  | c :: rest =>
    let parts := splitChars p rest
    if p c then [] :: parts
    else
      match parts with
      | [] => [[c]]
      | q :: qs => (c :: q) :: qs

/-- Join character-list parts with a separator (mirrors
`Array.prototype.join` / `String.intercalate`). -/
def joinChars (sep : List Char) : List (List Char) → List Char
  | [] => []
  | [q] => q
  | q :: qs => q ++ sep ++ joinChars sep qs

/-- Remove a `//` comment from one line, mirroring the per-line effect of
the global multiline regex `(^|\s)\/\/.*$`: the first `//` that sits at
line start, or is preceded by a whitespace character (which the match also
consumes), deletes the rest of the line. -/
def stripLineComment (atStart : Bool) : List Char → List Char
  | [] => []
  | c :: rest =>
    if atStart ∧ c = '/' ∧ rest.head? = some '/' then []
    else if c.isWhitespace ∧ rest.head? = some '/' ∧ rest.tail.head? = some '/' then []
    else c :: stripLineComment false rest

/-- `normalizeHeaderText`: strip comments and collapse whitespace to
stabilize a header for hashing. -/
def normalizeHeaderText (txt : String) : String :=
  let noBlock := stripBlockComments txt.toList
  let noComments :=
    joinChars ['\n'] ((splitChars (· == '\n') noBlock).map (stripLineComment true))
  (joinChars [' ']
    ((splitChars Char.isWhitespace noComments).filter (fun q => !q.isEmpty))).asString

/-- Models the `sha256` + `bytesToHex` digest from `@noble/hashes`.  The
digest is idealized as an injective encoding of the message — the spec
treats hash collisions as an accepted non-case — and is represented by the
message itself, which preserves the two properties the engine relies on:
determinism and distinctness of distinct inputs. -/
def sha256hex (s : String) : String := s

/-- `hashHeader`: hex digest of the normalized header, truncated to 16
characters. -/
def hashHeader (txt : String) : String :=
  (((sha256hex (normalizeHeaderText txt)).toList).take 16).asString

/-- Code-point lexicographic comparison of character lists. -/
def charListLe : List Char → List Char → Bool
  | [], _ => true
  | _ :: _, [] => false
  | a :: as, b :: bs =>
    if a.toNat < b.toNat then true
    else if b.toNat < a.toNat then false
    else charListLe as bs

/-- `String.prototype.localeCompare`-based ordering as the engine uses it
for sorting normalized headers, modeled as code-point lexicographic
comparison (the headers involved are plain ASCII). -/
def strLe (a b : String) : Bool := charListLe a.toList b.toList

/-! ## Container chains and declaration names -/

structure CEntry where
  kind : DKind
  name : String
  deriving DecidableEq, Repr

/-- Which enclosing node contributes a container-chain entry
(`containerChainOf` records named classes, interfaces, modules and
enums). -/
def containerEntry? (i : SInfo) : Option CEntry :=
  match i.kind, i.nameNode with
  | .classDecl, some n => some ⟨.classDecl, n.text⟩
  | .interfaceDecl, some n => some ⟨.interfaceDecl, n.text⟩
  | .moduleDecl, some n => some ⟨.moduleDecl, n.getText⟩
  | .enumDecl, some n => some ⟨.enumDecl, n.text⟩
  | _, _ => none

/-- `declName`: the engine's name for a declaration, with synthetic names
for constructors and call/construct signatures. -/
def declName (i : SInfo) : String :=
  if i.kind = .ctorDecl then "constructor"
  else if i.kind = .callSig then "__call"
  else if i.kind = .constructSig then "__new"
  else
    match i.nameNode with
    | some (.ident s) => s
    | some (.strLit s) => s
    | some (.numLit s) => s
    | some (.computedIdent s) => "[" ++ s ++ "]"
    | some (.computedOther t) => "[" ++ t ++ "]"
    | none =>
      if i.kind = .exportAssignment then "export="
      else if i.kind = .indexSig then
        match i.indexParamName with
        | some p => "[" ++ p ++ "]"
        | none => "[index]"
      else "<anonymous>"

/-! ## Header extraction (`getDeclarationHeader`) -/

def functionLikeHeaderKinds : List DKind :=
  [.functionDecl, .methodDecl, .getAccessor, .setAccessor, .ctorDecl, .funcExpr]

/-- `decl.getText(sf)`. -/
def getTextOf (text : String) (i : SInfo) : String :=
  sliceStr text i.start i.endP

/-- `getDeclarationHeader`: slice the declaration header out of the file
text using the per-kind stop positions (member-list brace, body block,
arrow token, initializer brace), falling back to the full text for
body-less declarations. -/
def getDeclarationHeader (text : String) (d : SInfo) : String :=
  if d.kind = .classDecl ∨ d.kind = .interfaceDecl ∨ d.kind = .enumDecl then
    jsTrim (sliceStr text d.start d.membersPos)
  else if d.kind = .typeAlias then
    (if d.aliasTypeIsLiteral then jsTrim (sliceStr text d.start d.aliasTypeStart)
     else
       let eqIdx := indexOfFrom text '=' d.start
       if eqIdx > -1 ∧ eqIdx < (d.endP : Int) then
         jsTrim (sliceStr text d.start (eqIdx.toNat + 1))
       else
         jsTrim ("type " ++ (match d.nameNode with | some n => n.getText | none => "")))
  else if d.kind ∈ functionLikeHeaderKinds ∧ d.hasBlockBody then
    jsTrim (sliceStr text d.start d.bodyPos)
  else if d.kind = .arrowFn then
    jsTrim (sliceStr text d.start d.arrowPos)
  else if d.kind = .variableDecl ∧ d.initIsObjectLit then
    jsTrim (sliceStr text d.start d.initStart)
  else if d.kind = .propertyAssignment ∧ d.initIsArrow then
    jsTrim (sliceStr text d.fullStart d.arrowPos)
  else if d.kind = .propertyAssignment ∧ d.initIsFuncExprBlock then
    jsTrim (sliceStr text d.fullStart d.bodyPos)
  else if d.kind = .methodSig then
    jsTrim (sliceStr text d.start d.endP)
  else getTextOf text d

/-! ## Tree paths

A declaration inside a file is addressed by the list of child indices from
the file's root.  `chainAt` replays `containerChainOf`'s parent walk
(outer to inner) along that path. -/

def nodeAt : SNode → List Nat → Option SNode
  | n, [] => some n
  | n, i :: rest => (n.children.get? i).bind (fun c => nodeAt c rest)

def ancestors : SNode → List Nat → List SNode
  | _, [] => []
  | n, i :: rest =>
    match n.children.get? i with
    | some c => n :: ancestors c rest
    | none => [n]

def chainAt (root : SNode) (p : List Nat) : List CEntry :=
  (ancestors root p).filterMap (fun a => containerEntry? a.info)

/-! ## StableSymbolId -/

structure StableIdM where
  hash : String
  file : String
  kind : String
  name : String
  containerChain : List CEntry
  headerHash : String
  exportHints : Option (List (String × String)) := none
  overloadIndex : Option Int := none
  deriving DecidableEq, Repr

/-- `createSymbolIdHash`: digest of the colon-joined identity fields
(`file:kind:name:headerHash:overloadIndex` followed by the container-chain
entries; `exportHints` and `hash` are not part of the input).  JS
`overloadIndex || 0` coincides with `getD 0` here since `0 || 0 = 0`. -/
def createSymbolIdHash (id : StableIdM) : String :=
  let base := id.file ++ ":" ++ id.kind ++ ":" ++ id.name ++ ":" ++ id.headerHash ++ ":"
      ++ toString (id.overloadIndex.getD 0)
  let data := id.containerChain.foldl
    (fun acc c => acc ++ ":" ++ kindName c.kind ++ ":" ++ c.name) base
  sha256hex data

/-- `equalStableId`: compare by content hash when both ids carry one
(non-empty string), else field by field. -/
def equalStableId (a b : StableIdM) : Bool :=
  if a.hash ≠ "" ∧ b.hash ≠ "" then a.hash == b.hash
  else if a.kind ≠ b.kind then false
  else if a.name ≠ b.name then false
  else if a.containerChain.length ≠ b.containerChain.length then false
  else if (a.containerChain.zip b.containerChain).any
      (fun cc => cc.1.kind != cc.2.kind || cc.1.name != cc.2.name) then false
  else if a.headerHash ≠ b.headerHash then false
  else if a.overloadIndex.getD 0 ≠ b.overloadIndex.getD 0 then false
  else if a.file ≠ b.file then false
  else true

/-! ## buildStableId -/

def canHaveOverloadsKinds : List DKind :=
  [.functionDecl, .methodDecl, .methodSig, .ctorDecl, .callSig, .constructSig]

/-- Sibling declarations that could be overloads of `targetName`, selected
by the parent's kind exactly as `buildStableId` does (the interface and
type-literal branches of the source apply the same filter and are merged
here). -/
def overloadSiblings (parent : SNode) (targetName : String) : List SNode :=
  if parent.info.kind = .sourceFile then
    parent.children.filter (fun c =>
      c.info.kind == .functionDecl && (c.info.nameNode.map NameNode.getText) == some targetName)
  else if parent.info.kind = .classDecl ∨ parent.info.kind = .classExpr then
    parent.children.filter (fun c =>
      (c.info.kind == .methodDecl && (c.info.nameNode.map NameNode.getText) == some targetName) ||
      (c.info.kind == .ctorDecl && targetName == "constructor"))
  else if parent.info.kind = .interfaceDecl ∨ parent.info.kind = .typeLiteral then
    parent.children.filter (fun c =>
      (c.info.kind == .methodSig && (c.info.nameNode.map NameNode.getText) == some targetName) ||
      (c.info.kind == .callSig && targetName == "__call") ||
      (c.info.kind == .constructSig && targetName == "__new"))
  else []

/-- `buildStableId` for the declaration at tree path `p` inside file `sf`.
The optional export-hint catalog of the source is not supplied here, so
`exportHints` stays `none`; it feeds no other field (in particular
`createSymbolIdHash` ignores it).  Build fails only when no node or no
symbol can be derived. -/
def buildStableId (sf : SFile) (p : List Nat) : Option StableIdM :=
  match nodeAt sf.root p with
  | none => none
  | some d =>
    if d.info.hasSymbol = false then none
    else
      let header := getDeclarationHeader sf.text d.info
      let headerHash := hashHeader header
      let targetName := declName d.info
      let overloadIndex : Int :=
        if d.info.kind ∈ canHaveOverloadsKinds then
          if p.isEmpty then 0
          else
            match nodeAt sf.root p.dropLast with
            | none => 0
            | some parent =>
              let siblings := overloadSiblings parent targetName
              if siblings.length > 1 then
                let key := fun (s : SNode) =>
                  normalizeHeaderText (getDeclarationHeader sf.text s.info)
                let sorted := List.insertionSort (fun a b => strLe (key a) (key b) = true) siblings
                let currentHeader := normalizeHeaderText header
                match sorted.findIdx? (fun s => key s == currentHeader) with
                | some i => (i : Int)
                | none =>
                  match sorted.findIdx? (fun s => s.info.start == d.info.start) with
                  | some i => (i : Int)
                  | none => -1
              else 0
        else 0
      let id0 : StableIdM := {
        hash := "", file := sf.path, kind := kindName d.info.kind,
        name := targetName, containerChain := chainAt sf.root p,
        headerHash := headerHash, exportHints := none,
        overloadIndex := some overloadIndex }
      some { id0 with hash := createSymbolIdHash id0 }

/-! ## resolveStableId -/

/-- A candidate found by `resolveStableId`: the node, the text of the file
it lives in, and the container chain at its position. -/
structure Candidate where
  node : SNode
  text : String
  chain : List CEntry

/-- `considerDecl`'s predicate: kind name, declaration name, container
chain (the source compares `JSON.stringify` images; structural equality
here) and header hash must all match the id. -/
def considerOk (text : String) (id : StableIdM) (chain : List CEntry) (i : SInfo) : Bool :=
  kindName i.kind == id.kind &&
  declName i == id.name &&
  chain == id.containerChain &&
  hashHeader (getDeclarationHeader text i) == id.headerHash

/-- The syntactic kinds the file-local scan of `resolveStableId` offers to
`considerDecl`. -/
def scannedKindsFile : List DKind :=
  [.classDecl, .interfaceDecl, .enumDecl, .typeAlias, .functionDecl, .methodDecl,
   .methodSig, .ctorDecl, .callSig, .constructSig, .getAccessor, .setAccessor,
   .propertyDecl, .propertySig, .indexSig, .propertyAssignment,
   .shorthandPropertyAssignment, .enumMember, .variableDecl, .moduleDecl]

/-- The kinds the project-wide fallback scan offers to `considerDecl`
(unlike the file-local scan it omits method and property signatures). -/
def scannedKindsProject : List DKind :=
  [.classDecl, .interfaceDecl, .enumDecl, .typeAlias, .functionDecl, .methodDecl,
   .ctorDecl, .callSig, .constructSig, .getAccessor, .setAccessor,
   .propertyDecl, .indexSig, .propertyAssignment,
   .shorthandPropertyAssignment, .enumMember, .variableDecl, .moduleDecl]

mutual

/-- The recursive `visit` of `resolveStableId`: collect every node of a
scanned kind that passes `considerDecl`, threading the container chain
downward (equivalent to the source's upward `containerChainOf` walk at
each node). -/
def collectCandidates (text : String) (id : StableIdM) (kinds : List DKind)
    (chain : List CEntry) : SNode → List Candidate
  | .node i cs =>
    (if i.kind ∈ kinds ∧ considerOk text id chain i = true then
      [⟨SNode.node i cs, text, chain⟩] else []) ++
    collectCandidatesList text id kinds (chain ++ (containerEntry? i).toList) cs

def collectCandidatesList (text : String) (id : StableIdM) (kinds : List DKind)
    (chain : List CEntry) : List SNode → List Candidate
  | [] => []
  | n :: rest =>
    collectCandidates text id kinds chain n ++
    collectCandidatesList text id kinds chain rest

end

/-- The project-wide fallback scan: visit non-declaration files in order
and stop at the first file producing candidates. -/
def projectScanCands (id : StableIdM) : List SFile → List Candidate
  | [] => []
  | f :: rest =>
    if f.isDeclFile then projectScanCands id rest
    else
      let cs := collectCandidates f.text id scannedKindsProject [] f.root
      if cs.isEmpty then projectScanCands id rest else cs

/-- The candidate ordering used by `resolveStableId`'s overload
disambiguation: `localeCompare` on normalized headers (each candidate's
header sliced from its own source file). -/
def headerLe (a b : Candidate) : Prop :=
  strLe (normalizeHeaderText (getDeclarationHeader a.text a.node.info))
    (normalizeHeaderText (getDeclarationHeader b.text b.node.info)) = true

instance : DecidableRel headerLe := fun a b =>
  inferInstanceAs (Decidable
    (strLe (normalizeHeaderText (getDeclarationHeader a.text a.node.info))
      (normalizeHeaderText (getDeclarationHeader b.text b.node.info)) = true))

/-- The final candidate selection of `resolveStableId`: with more than one
candidate and a numeric `overloadIndex`, sort by normalized header and
index (out-of-range indexing falls back to the first candidate, as
`sorted[i] ?? sorted[0]` does); otherwise take the first candidate. -/
def pickCandidate (id : StableIdM) (candidates : List Candidate) : Option Candidate :=
  if candidates.length > 1 then
    match id.overloadIndex with
    | some k =>
      let sorted := List.insertionSort headerLe candidates
      ((if k < 0 then none else sorted.get? k.toNat).orElse (fun _ => sorted.head?))
    | none => candidates.head?
  else candidates.head?

/-- `resolveStableId`: search the id's file, fall back to a project-wide
scan, and disambiguate multiple candidates with `pickCandidate`. -/
def resolveStableId (prog : SProgram) (id : StableIdM) : Option Candidate :=
  let fileCands :=
    match prog.files.find? (fun f => f.path == id.file) with
    | some f => collectCandidates f.text id scannedKindsFile [] f.root
    | none => []
  let candidates := if fileCands.isEmpty then projectScanCands id prog.files else fileCands
  pickCandidate id candidates

/-! ## Concrete projects for the stable-identity claims -/

/-- First of two overloaded top-level functions:
`function f(a: number): number { return a; }` at offset 0. -/
def ovl1 : SNode :=
  .node { kind := .functionDecl, nameNode := some (.ident "f"),
          start := 0, endP := 43, hasBlockBody := true, bodyPos := 29 } []

/-- Second overload: `function f(a: string): string { return a; }` at
offset 44. -/
def ovl2 : SNode :=
  .node { kind := .functionDecl, nameNode := some (.ident "f"),
          start := 44, endP := 87, hasBlockBody := true, bodyPos := 73 } []

def sfC3 : SFile :=
  { path := "src/overloads.ts",
    text := "function f(a: number): number { return a; }\nfunction f(a: string): string { return a; }",
    root := .node { kind := .sourceFile, start := 0, endP := 87 } [ovl1, ovl2] }

def progC3 : SProgram := { files := [sfC3] }

/-- A file whose only declaration of interest is an arrow function inside
a variable declaration: `const g = (x) => x`. -/
def arrowNodeC2 : SNode :=
  .node { kind := .arrowFn, start := 10, endP := 18, arrowPos := 14 } []

def sfC2x : SFile :=
  { path := "src/misc.ts",
    text := "const g = (x) => x",
    root := .node { kind := .sourceFile, start := 0, endP := 18 }
      [.node { kind := .variableDecl, nameNode := some (.ident "g"),
               start := 6, endP := 18 } [arrowNodeC2]] }

def progC2x : SProgram := { files := [sfC2x] }

/-! ## Claim C4: identity of StableSymbolIds -/

/-- The six identity fields `equalStableId` compares in its field-by-field
path (a missing `overloadIndex` is read as 0 by the code). -/
def sixFieldsMatch (a b : StableIdM) : Prop :=
  a.kind = b.kind ∧ a.name = b.name ∧ a.containerChain = b.containerChain ∧
  a.headerHash = b.headerHash ∧ a.overloadIndex.getD 0 = b.overloadIndex.getD 0 ∧
  a.file = b.file

theorem zip_any_mismatch_false_eq : ∀ (a b : List CEntry), a.length = b.length →
    ((a.zip b).any (fun cc => cc.1.kind != cc.2.kind || cc.1.name != cc.2.name)) = false →
    a = b := by
  intro a
  induction a with
  | nil =>
    intro b h _
    cases b with
    | nil => rfl
    | cons y ys => simp at h
  | cons x xs ih =>
    intro b hlen hany
    cases b with
    | nil => simp at hlen
    | cons y ys =>
      simp only [List.zip_cons_cons, List.any_cons, Bool.or_eq_false_iff] at hany
      obtain ⟨hxy, hrest⟩ := hany
      simp only [Bool.or_eq_false_iff, bne_eq_false_iff_eq] at hxy
      have hx : x = y := by
        cases x; cases y
        simp_all
      have : xs = ys := by
        apply ih ys
        · simpa using hlen
        · exact hrest
      rw [hx, this]

theorem zip_any_mismatch_refl (a : List CEntry) :
    ((a.zip a).any (fun cc => cc.1.kind != cc.2.kind || cc.1.name != cc.2.name)) = false := by
  induction a with
  | nil => rfl
  | cons x xs ih => simp [ih]

/-- Ids whose colon-joined identity data coincides although the fields
differ: the `name`/`headerHash` boundary is ambiguous because the fields
are joined with ":" without escaping. -/
def c4aPre : StableIdM where
  hash := ""
  file := "x"
  kind := "K"
  name := "n:h"
  containerChain := []
  headerHash := "z"
  exportHints := none
  overloadIndex := some 0

def c4a : StableIdM := { c4aPre with hash := createSymbolIdHash c4aPre }

def c4bPre : StableIdM where
  hash := ""
  file := "x"
  kind := "K"
  name := "n"
  containerChain := []
  headerHash := "h:z"
  exportHints := none
  overloadIndex := some 0

def c4b : StableIdM := { c4bPre with hash := createSymbolIdHash c4bPre }

/-- C4 counterexample: `equalStableId` is **not** "true iff all fields
match".  `c4a` and `c4b` differ in `name` and `headerHash`, yet both carry
hashes and `createSymbolIdHash` maps their differing fields to the same
colon-joined string, so `equalStableId` returns `true`. -/
theorem c4_counterexample :
    equalStableId c4a c4b = true ∧ c4a.name ≠ c4b.name ∧ c4a.headerHash ≠ c4b.headerHash := by
  decide

/-- C4 amended: `createSymbolIdHash` is a deterministic function of the
id's six identity fields (so identical fields give identical hashes), and
for ids that do not both carry a precomputed `hash`, `equalStableId` is
true iff the declaration kind, name, container chain, header hash,
overload index (missing read as 0) and file all match; when both ids carry
hashes only the hashes are compared, which can equate ids with different
fields (see the counterexample). -/
theorem c4_hash_deterministic_and_field_iff :
    (∀ a b : StableIdM, a.file = b.file → a.kind = b.kind → a.name = b.name →
      a.headerHash = b.headerHash → a.overloadIndex.getD 0 = b.overloadIndex.getD 0 →
      a.containerChain = b.containerChain →
      createSymbolIdHash a = createSymbolIdHash b) ∧
    (∀ a b : StableIdM, a.hash = "" ∨ b.hash = "" →
      (equalStableId a b = true ↔ sixFieldsMatch a b)) := by
  constructor
  · intro a b h1 h2 h3 h4 h5 h6
    unfold createSymbolIdHash
    rw [h1, h2, h3, h4, h5, h6]
  · intro a b hh
    have hguard : ¬ (a.hash ≠ "" ∧ b.hash ≠ "") := by
      rcases hh with h | h
      · intro hc; exact hc.1 h
      · intro hc; exact hc.2 h
    unfold equalStableId
    rw [if_neg hguard]
    constructor
    · intro htrue
      split_ifs at htrue with hk hn hl hz hhh ho hf
      case _ =>
        have hz2 : ((a.containerChain.zip b.containerChain).any
            (fun cc => cc.1.kind != cc.2.kind || cc.1.name != cc.2.name)) = false := by
          revert hz
          cases ((a.containerChain.zip b.containerChain).any
            (fun cc => cc.1.kind != cc.2.kind || cc.1.name != cc.2.name)) <;> simp
        exact ⟨not_not.mp hk, not_not.mp hn,
          zip_any_mismatch_false_eq _ _ (not_not.mp hl) hz2,
          not_not.mp hhh, not_not.mp ho, not_not.mp hf⟩
    · intro hm
      obtain ⟨hk, hn, hc, hhh, ho, hf⟩ := hm
      rw [if_neg (by simpa using hk), if_neg (by simpa using hn),
        if_neg (by simp [hc]), if_neg (by simp [hc, zip_any_mismatch_refl]),
        if_neg (by simpa using hhh), if_neg (by simpa using ho),
        if_neg (by simpa using hf)]

def c4w1 : StableIdM where
  hash := ""
  file := "f"
  kind := "k"
  name := "n"
  containerChain := []
  headerHash := "h"
  exportHints := none
  overloadIndex := some 0

def c4w2 : StableIdM where
  hash := "zz"
  file := "f"
  kind := "k"
  name := "n"
  containerChain := []
  headerHash := "h"
  exportHints := some [("m", "e")]
  overloadIndex := none

/-- Witness for the hypotheses of `c4_hash_deterministic_and_field_iff`,
applied at concrete ids (which differ in `exportHints`, `hash` and the
representation of the overload index). -/
theorem c4_field_iff_witness :
    createSymbolIdHash c4w1 = createSymbolIdHash c4w2 ∧
    (equalStableId c4w1 c4w2 = true ↔ sixFieldsMatch c4w1 c4w2) :=
  ⟨c4_hash_deterministic_and_field_iff.1 c4w1 c4w2 rfl rfl rfl rfl rfl rfl,
   c4_hash_deterministic_and_field_iff.2 c4w1 c4w2 (Or.inl rfl)⟩

/-! ## Claims C3 and C2: overload disambiguation and the stable-id
round-trip -/

/-- C3 counterexample: for the two overloads `function f(a: number) ...`
and `function f(a: string) ...` in `sfC3`, the built ids do **not** differ
only in `overloadIndex`: their header texts differ, so `headerHash` (and
with it the derived `hash`) differs as well. -/
theorem c3_counterexample :
    (buildStableId sfC3 [0]).isSome = true ∧ (buildStableId sfC3 [1]).isSome = true ∧
    (buildStableId sfC3 [0]).map (fun i => i.headerHash) ≠
      (buildStableId sfC3 [1]).map (fun i => i.headerHash) := by
  decide

/-- C3 amended: the two ids agree on file, kind, name, container chain and
export hints, differ in `overloadIndex` (0 and 1) **and** in `headerHash`
(hence in the derived `hash`), and `resolveStableId` maps each id back to
its own declaration. -/
theorem c3_overload_disambiguation :
    (buildStableId sfC3 [0]).map (fun i => i.file) =
      (buildStableId sfC3 [1]).map (fun i => i.file) ∧
    (buildStableId sfC3 [0]).map (fun i => i.kind) =
      (buildStableId sfC3 [1]).map (fun i => i.kind) ∧
    (buildStableId sfC3 [0]).map (fun i => i.name) =
      (buildStableId sfC3 [1]).map (fun i => i.name) ∧
    (buildStableId sfC3 [0]).map (fun i => i.containerChain) =
      (buildStableId sfC3 [1]).map (fun i => i.containerChain) ∧
    (buildStableId sfC3 [0]).map (fun i => i.exportHints) =
      (buildStableId sfC3 [1]).map (fun i => i.exportHints) ∧
    (buildStableId sfC3 [0]).map (fun i => i.overloadIndex) = some (some 0) ∧
    (buildStableId sfC3 [1]).map (fun i => i.overloadIndex) = some (some 1) ∧
    (buildStableId sfC3 [0]).map (fun i => i.headerHash) ≠
      (buildStableId sfC3 [1]).map (fun i => i.headerHash) ∧
    ((buildStableId sfC3 [0]).bind (fun i => resolveStableId progC3 i)).map
        (fun c => c.node.info) = some ovl1.info ∧
    ((buildStableId sfC3 [1]).bind (fun i => resolveStableId progC3 i)).map
        (fun c => c.node.info) = some ovl2.info := by
  refine ⟨rfl, rfl, rfl, rfl, rfl, rfl, rfl, by decide, rfl, rfl⟩

/-- C2 counterexample: the round-trip is not total over all declarations
for which `buildStableId` succeeds.  For the arrow function in `sfC2x`,
`buildStableId` succeeds (kind `ArrowFunction`), but `resolveStableId`
scans neither arrow functions in its file pass nor in its project-wide
pass, so resolution returns nothing instead of a matching declaration. -/
theorem c2_counterexample :
    (buildStableId sfC2x [0, 0]).isSome = true ∧
    ((buildStableId sfC2x [0, 0]).bind (fun i => resolveStableId progC2x i)).isSome = false := by
  exact ⟨rfl, rfl⟩

/-! ## The stable-id round-trip (amended C2) -/

/-- Unpack `considerDecl`'s predicate. -/
theorem considerOk_true_iff (text : String) (id : StableIdM) (chain : List CEntry)
    (i : SInfo) :
    considerOk text id chain i = true ↔
      (kindName i.kind = id.kind ∧ declName i = id.name ∧ chain = id.containerChain ∧
        hashHeader (getDeclarationHeader text i) = id.headerHash) := by
  simp [considerOk, Bool.and_eq_true, beq_iff_eq, and_assoc]

mutual

/-- Every candidate the scan collects passed `considerDecl` against the id
(at its recorded chain, in the scanned file's text). -/
theorem collectCandidates_sound (text : String) (id : StableIdM) (kinds : List DKind) :
    ∀ (chain : List CEntry) (n : SNode) (c : Candidate),
      c ∈ collectCandidates text id kinds chain n →
      c.text = text ∧ considerOk text id c.chain c.node.info = true
  | chain, .node i cs, c, hmem => by
    rw [collectCandidates] at hmem
    rcases List.mem_append.mp hmem with h | h
    · by_cases hcond : (i.kind ∈ kinds ∧ considerOk text id chain i = true)
      · rw [if_pos hcond] at h
        simp only [List.mem_singleton] at h
        subst h
        exact ⟨rfl, hcond.2⟩
      · rw [if_neg hcond] at h
        simp at h
    · exact collectCandidatesList_sound text id kinds _ cs c h

theorem collectCandidatesList_sound (text : String) (id : StableIdM) (kinds : List DKind) :
    ∀ (chain : List CEntry) (l : List SNode) (c : Candidate),
      c ∈ collectCandidatesList text id kinds chain l →
      c.text = text ∧ considerOk text id c.chain c.node.info = true
  | chain, [], c, hmem => by
    rw [collectCandidatesList] at hmem
    simp at hmem
  | chain, n :: rest, c, hmem => by
    rw [collectCandidatesList] at hmem
    rcases List.mem_append.mp hmem with h | h
    · exact collectCandidates_sound text id kinds chain n c h
    · exact collectCandidatesList_sound text id kinds chain rest c h

end

theorem collectCandidatesList_subset (text : String) (id : StableIdM) (kinds : List DKind)
    (chain : List CEntry) (n : SNode) (c : Candidate)
    (hc : c ∈ collectCandidates text id kinds chain n) :
    ∀ (l : List SNode), n ∈ l → c ∈ collectCandidatesList text id kinds chain l := by
  intro l
  induction l with
  | nil => intro h; simp at h
  | cons m rest ih =>
    intro h
    rw [collectCandidatesList]
    rcases List.mem_cons.mp h with h | h
    · subst h
      exact List.mem_append.mpr (Or.inl hc)
    · exact List.mem_append.mpr (Or.inr (ih h))

theorem chainAt_nil (n : SNode) : chainAt n [] = [] := rfl

theorem ancestors_cons (i : SInfo) (cs : List SNode) (j : Nat) (rest : List Nat)
    (child : SNode) (hget : cs.get? j = some child) :
    ancestors (.node i cs) (j :: rest) = .node i cs :: ancestors child rest := by
  rw [ancestors]
  rw [List.get?_eq_getElem?] at hget
  simp [SNode.children, hget]

theorem chainAt_cons (i : SInfo) (cs : List SNode) (j : Nat) (rest : List Nat)
    (child : SNode) (hget : cs.get? j = some child) :
    chainAt (.node i cs) (j :: rest) =
      (containerEntry? i).toList ++ chainAt child rest := by
  simp only [chainAt, ancestors_cons i cs j rest child hget, List.filterMap_cons]
  cases h : containerEntry? i <;> simp [h, SNode.info]

/-- Completeness: the declaration a stable id was built from is collected
by the scan of its own file (stated relative to an ambient chain so the
induction goes through). -/
theorem collectCandidates_complete (text : String) (id : StableIdM) (kinds : List DKind) :
    ∀ (p : List Nat) (chain : List CEntry) (n : SNode) (d : SNode),
      nodeAt n p = some d →
      d.info.kind ∈ kinds →
      considerOk text id (chain ++ chainAt n p) d.info = true →
      (⟨d, text, chain ++ chainAt n p⟩ : Candidate) ∈
        collectCandidates text id kinds chain n := by
  intro p
  induction p with
  | nil =>
    intro chain n d hnode hkind hok
    cases n with
    | node i cs =>
      obtain rfl : SNode.node i cs = d := by simpa [nodeAt] using hnode
      rw [collectCandidates]
      rw [chainAt_nil, List.append_nil] at hok ⊢
      rw [if_pos ⟨hkind, hok⟩]
      exact List.mem_append.mpr (Or.inl (List.mem_singleton.mpr rfl))
  | cons j rest ih =>
    intro chain n d hnode hkind hok
    cases n with
    | node i cs =>
      have hget : ∃ child, cs.get? j = some child ∧ nodeAt child rest = some d := by
        unfold nodeAt at hnode
        simp only [SNode.children] at hnode
        cases hc : cs.get? j with
        | none => rw [hc] at hnode; simp at hnode
        | some child => rw [hc] at hnode; exact ⟨child, rfl, hnode⟩
      obtain ⟨child, hc, hrest⟩ := hget
      rw [chainAt_cons i cs j rest child hc, ← List.append_assoc] at hok
      have hmem := ih (chain ++ (containerEntry? i).toList) child d hrest hkind hok
      rw [collectCandidates]
      refine List.mem_append.mpr (Or.inr ?_)
      have hchild : child ∈ cs := cs.get?_mem hc
      have := collectCandidatesList_subset text id kinds
        (chain ++ (containerEntry? i).toList) child _ hmem cs hchild
      rw [chainAt_cons i cs j rest child hc, ← List.append_assoc]
      exact this

/-- The identity fields `buildStableId` records, read back from a
successful build. -/
theorem buildStableId_fields (sf : SFile) (p : List Nat) (d : SNode) (id : StableIdM)
    (hnode : nodeAt sf.root p = some d) (hbuild : buildStableId sf p = some id) :
    id.file = sf.path ∧ id.kind = kindName d.info.kind ∧ id.name = declName d.info ∧
    id.containerChain = chainAt sf.root p ∧
    id.headerHash = hashHeader (getDeclarationHeader sf.text d.info) ∧
    ∃ k, id.overloadIndex = some k := by
  rw [buildStableId, hnode] at hbuild
  dsimp only at hbuild
  by_cases hs : d.info.hasSymbol = false
  · rw [if_pos hs] at hbuild; cases hbuild
  · rw [if_neg hs] at hbuild
    obtain rfl := Option.some.inj hbuild
    exact ⟨rfl, rfl, rfl, rfl, rfl, _, rfl⟩

/-- Whatever `pickCandidate` picks is one of the candidates. -/
theorem pickCandidate_mem (id : StableIdM) (C : List Candidate) (hne : C ≠ []) :
    ∃ c, pickCandidate id C = some c ∧ c ∈ C := by
  unfold pickCandidate
  by_cases hlen : C.length > 1
  · rw [if_pos hlen]
    cases ho : id.overloadIndex with
    | none =>
      cases C with
      | nil => exact absurd rfl hne
      | cons a l => exact ⟨a, rfl, List.mem_cons_self a l⟩
    | some k =>
      dsimp only
      have hperm := List.perm_insertionSort headerLe C
      obtain ⟨a, l, hS⟩ : ∃ a l, List.insertionSort headerLe C = a :: l := by
        cases hS : List.insertionSort headerLe C with
        | nil =>
          rw [hS] at hperm
          cases C with
          | nil => exact absurd rfl hne
          | cons b m => exact absurd hperm.symm (by simp)
        | cons a l => exact ⟨a, l, rfl⟩
      cases hg : (if k < 0 then none else (List.insertionSort headerLe C).get? k.toNat) with
      | some x =>
        refine ⟨x, rfl, ?_⟩
        have hx : x ∈ List.insertionSort headerLe C := by
          by_cases hk : k < 0
          · rw [if_pos hk] at hg; cases hg
          · rw [if_neg hk] at hg
            exact List.get?_mem hg
        exact hperm.mem_iff.mp hx
      | none =>
        refine ⟨a, ?_, ?_⟩
        · show (List.insertionSort headerLe C).head? = some a
          rw [hS]
          rfl
        · exact hperm.mem_iff.mp (hS ▸ List.mem_cons_self a l)
  · rw [if_neg hlen]
    cases C with
    | nil => exact absurd rfl hne
    | cons a l => exact ⟨a, rfl, List.mem_cons_self a l⟩

/-- C2 amended: the round-trip holds for declarations of the kinds
`resolveStableId` scans.  If `buildStableId` succeeds on the declaration
`d` at path `p` of file `sf`, the id's file lookup finds `sf`, and `d`'s
kind is among the scanned kinds, then `resolveStableId` returns a
declaration whose kind, name, container chain and header hash all equal
`d`'s. -/
theorem c2_roundtrip (prog : SProgram) (sf : SFile) (p : List Nat) (d : SNode)
    (id : StableIdM)
    (hbuild : buildStableId sf p = some id)
    (hnode : nodeAt sf.root p = some d)
    (hfind : prog.files.find? (fun f => f.path == id.file) = some sf)
    (hkind : d.info.kind ∈ scannedKindsFile) :
    ∃ c : Candidate, resolveStableId prog id = some c ∧
      c.text = sf.text ∧
      kindName c.node.info.kind = kindName d.info.kind ∧
      declName c.node.info = declName d.info ∧
      c.chain = chainAt sf.root p ∧
      hashHeader (getDeclarationHeader c.text c.node.info) =
        hashHeader (getDeclarationHeader sf.text d.info) := by
  obtain ⟨hfile, hkindid, hname, hchain, hhash, k, hov⟩ :=
    buildStableId_fields sf p d id hnode hbuild
  have hok : considerOk sf.text id ([] ++ chainAt sf.root p) d.info = true := by
    rw [considerOk_true_iff]
    exact ⟨hkindid.symm, hname.symm, by simpa using hchain.symm, hhash.symm⟩
  have hmem := collectCandidates_complete sf.text id scannedKindsFile p [] sf.root d
    hnode hkind hok
  have hne : collectCandidates sf.text id scannedKindsFile [] sf.root ≠ [] := by
    intro h0
    rw [h0] at hmem
    exact absurd hmem (List.not_mem_nil _)
  have hres : resolveStableId prog id =
      pickCandidate id (collectCandidates sf.text id scannedKindsFile [] sf.root) := by
    unfold resolveStableId
    rw [hfind]
    dsimp only
    cases hC : collectCandidates sf.text id scannedKindsFile [] sf.root with
    | nil => exact absurd hC hne
    | cons a l => rfl
  obtain ⟨c, hpick, hcmem⟩ := pickCandidate_mem id _ hne
  obtain ⟨ht, hcok⟩ :=
    collectCandidates_sound sf.text id scannedKindsFile [] sf.root c hcmem
  rw [considerOk_true_iff] at hcok
  obtain ⟨hck, hcn, hcc, hch⟩ := hcok
  refine ⟨c, hres.trans hpick, ht, ?_, ?_, ?_, ?_⟩
  · rw [hck, hkindid]
  · rw [hcn, hname]
  · rw [hcc, hchain]
  · rw [ht, hch, hhash]

/-- The id built for the first overload in `sfC3` (checked by `rfl` in the
witness below). -/
def c2wId : StableIdM where
  hash := "src/overloads.ts:FunctionDeclaration:f:function f(a: nu:0"
  file := "src/overloads.ts"
  kind := "FunctionDeclaration"
  name := "f"
  containerChain := []
  headerHash := "function f(a: nu"
  exportHints := none
  overloadIndex := some 0

/-- Witness for `c2_roundtrip`, at the first overload of `sfC3`. -/
theorem c2_roundtrip_witness :
    ∃ c : Candidate, resolveStableId progC3 c2wId = some c ∧
      c.text = sfC3.text ∧
      kindName c.node.info.kind = kindName ovl1.info.kind ∧
      declName c.node.info = declName ovl1.info ∧
      c.chain = chainAt sfC3.root [0] ∧
      hashHeader (getDeclarationHeader c.text c.node.info) =
        hashHeader (getDeclarationHeader sfC3.text ovl1.info) :=
  c2_roundtrip progC3 sfC3 [0] ovl1 c2wId (by decide) (by rfl) (by rfl) (by decide)

/-! ## Semantic model

The checker-facing half of the engine (`pathsTo`, `rankPaths`, `related`)
consumes the TypeScript checker through a small API surface: symbol
lookup, alias resolution, `getTypeOfSymbolAtLocation`,
`getDeclaredTypeOfSymbol`, `getPropertiesOfType`, call/construct
signatures, and module export tables.  We model that surface as finite
tables indexed by numeric ids (object identity of `ts.Symbol`/`ts.Type`
values maps to id equality). -/

abbrev SymId := Nat
abbrev TypeId := Nat
abbrev DeclId := Nat

/-! `ts.SymbolFlags` bit values used by the engine. -/

def sfFunction : Nat := 16
def sfClass : Nat := 32
def sfInterface : Nat := 64
def sfEnum : Nat := 384
def sfEnumMember : Nat := 8
def sfValueModule : Nat := 512
def sfNamespaceModule : Nat := 1024
def sfNamespace : Nat := 1536
def sfTypeLiteral : Nat := 2048
def sfVariable : Nat := 3
def sfTypeParameter : Nat := 262144
def sfTypeAlias : Nat := 524288
def sfAlias : Nat := 2097152
def sfType : Nat := 788968

/-! `ts.TypeFlags` bit values; `tfPrimitiveMask` is the union tested by
`isGlobalOrPrimitive` (Any, Unknown, Never, String, Number, Boolean,
BigInt, Void, Undefined, Null, ESSymbol). -/

def tfPrimitiveMask : Nat := 1 + 2 + 131072 + 4 + 8 + 16 + 64 + 16384 + 32768 + 65536 + 4096

/-! ### Syntactic payloads consumed by `related` -/

mutual

/-- Type nodes as `symbolsFromTypeNodeDeep` walks them.  Each
symbol-bearing position carries the checker's answer to
`getSymbolAtLocation`; a predicate node (`x is Y`) also carries the
checker type of its inner node (for `addPredicateTypeFromNode`'s
`getTypeFromTypeNode`). -/
inductive TypeLitMemberM where
  | propSigT (ty : Option TypeNodeM)
  | methodSigT (params : List (Option TypeNodeM)) (ret : Option TypeNodeM)
  | indexSigT (ty : Option TypeNodeM)
  | otherT

/-- See `TypeLitMemberM`. -/
inductive TypeNodeM where
  | typeRef (refSym : Option SymId) (args : List TypeNodeM)
  | keywordT
  | arrayT (elem : TypeNodeM)
  | unionT (members : List TypeNodeM)
  | intersectionT (members : List TypeNodeM)
  | parenT (inner : TypeNodeM)
  | typeLitT (members : List TypeLitMemberM)
  | funcT (params : List (Option TypeNodeM)) (ret : Option TypeNodeM)
  | mappedT (constraint : Option TypeNodeM) (value : Option TypeNodeM)
  | indexedAccessT (obj : TypeNodeM) (idx : TypeNodeM)
  | typeOperatorT (inner : TypeNodeM)
  | conditionalT (checkT : TypeNodeM) (extendsT : TypeNodeM) (trueT : TypeNodeM) (falseT : TypeNodeM)
  | predicateT (inner : Option TypeNodeM) (innerType : TypeId)
  | typeQueryT (exprSym : Option SymId)
  | importT (qualifierSym : Option SymId) (args : List TypeNodeM)

end

/-- Keys of element-access expressions (`obj["p"]`, `obj[k]`). -/
inductive EKeyM where
  | strKey (s : String)
  | identKey (sym : Option SymId)
  | otherKey
  deriving DecidableEq, Repr

def binAndAnd : Nat := 0
def binBarBar : Nat := 1
def binQQ : Nat := 2
def binOther : Nat := 3

/-- Value expressions as `symbolsFromValueExprDeep` walks them.  Nodes
carry the checker answers the walk queries at that node
(`getSymbolAtLocation` on the whole/name expression, `getTypeAtLocation`
of the object, `getResolvedSignature`'s declaration symbol).  `fnExprE`
models arrow functions and function expressions appearing as variable
initializers: `sigRet` is `getSignatureFromDeclaration(...).getReturnType()`
when a signature exists, `body` its expression children. -/
inductive ExprM where
  | identE (sym : Option SymId)
  | strLitE (s : String)
  | thisE
  | superE
  | parenE (inner : ExprM)
  | awaitE (inner : ExprM)
  | propAccessE (obj : ExprM) (name : String) (wholeSym : Option SymId)
      (nameSym : Option SymId) (objType : TypeId)
  | elemAccessE (obj : ExprM) (key : EKeyM) (objType : TypeId)
  | callE (callee : ExprM) (sigSym : Option SymId) (calleeSym : Option SymId)
  | newE (callee : ExprM) (sigSym : Option SymId) (exprSym : Option SymId) (calleeType : TypeId)
  | condE (whenTrue : ExprM) (whenFalse : ExprM)
  | binE (op : Nat) (lhs : ExprM) (rhs : ExprM)
  | fnExprE (params : List (Option TypeNodeM)) (sigRet : Option TypeId) (body : List ExprM)
  | otherE (children : List ExprM)

/-- A heritage-clause entry `extends/implements Foo<T, U>`: the symbol of
the head expression and the type-argument nodes. -/
structure HeritageEntryM where
  headSym : Option SymId := none
  args : List TypeNodeM := []

/-- Interface members as `related`'s interface branch consumes them. -/
inductive IfaceMemberM where
  | imethodSig (params : List (Option TypeNodeM)) (retAnn : Option TypeNodeM)
  | iconstructSig (params : List (Option TypeNodeM)) (retAnn : Option TypeNodeM)
  | ipropertySig (ty : Option TypeNodeM)
  | iindexSig (ty : Option TypeNodeM)
  | iother

/-- Class members as `related`'s class branch consumes them.  `isPublic`
models `isPublicClassElement` (no `private`/`protected` modifier, no
`#`-name).  Methods/accessors without a return annotation contribute
nothing in the source (its guard requires `m.type`), hence `retAnn` is an
`Option` tested by the branch.  `inferredType` on properties is the
checker's type used when no annotation is present. -/
inductive ClassMemberM where
  | cctor (isPublic : Bool) (params : List (Option TypeNodeM))
  | cmethod (isPublic : Bool) (params : List (Option TypeNodeM)) (retAnn : Option TypeNodeM)
  | caccessor (isPublic : Bool) (retAnn : Option TypeNodeM)
  | cproperty (isPublic : Bool) (typeAnn : Option TypeNodeM) (inferredType : TypeId)
  | cother

/-! ### Declarations, symbols, types, modules -/

/-- One call signature of a type: the parameter declarations' type
annotations and the signature's return type (used by `related`'s inferred
fallback; `pathsTo` only tests for the presence of call signatures). -/
structure SigM where
  paramAnns : List (Option TypeNodeM) := []
  ret : TypeId := 0

/-- A declaration as the checker-facing algorithms see it: kind tag,
source file and position (`locOfDecl`, `declKey`), parent link, modifier
bits, the checker symbol of its name node, and the per-kind syntactic
payloads `related` dispatches on. -/
structure DeclR where
  kind : DKind := .otherKind
  file : String := ""
  start : Nat := 0
  line : Nat := 1
  column : Nat := 1
  isStatic : Bool := false
  parent : Option DeclId := none
  nameSym : Option SymId := none
  declSym : Option SymId := none
  varInit : Option ExprM := none
  varTypeAnn : Option TypeNodeM := none
  fnParams : List (Option TypeNodeM) := []
  fnReturnAnn : Option TypeNodeM := none
  fnHasSig : Bool := true
  fnSigReturnType : TypeId := 0
  aliasType : Option TypeNodeM := none
  heritage : List HeritageEntryM := []
  ifaceMembers : List IfaceMemberM := []
  classMembers : List ClassMemberM := []
  propTypeAnn : Option TypeNodeM := none

/-- A symbol: name, flags, full alias resolution (`getAliasedSymbol`),
declarations, value declaration, and the checker types
`getTypeOfSymbolAtLocation` / `getDeclaredTypeOfSymbol` yield for it (the
engine always passes the symbol's own declaration as the location). -/
structure SymM where
  name : String := ""
  flags : Nat := 0
  aliasTarget : SymId := 0
  decls : List DeclId := []
  valueDecl : Option DeclId := none
  typeOf : TypeId := 0
  declaredType : TypeId := 0

/-- A type: its symbol, flags, properties, call signatures, construct
signatures' instance types, alias symbol, union/intersection members and
generic-reference data (for `typeTargets`). -/
structure TypeM where
  symId : Option SymId := none
  flags : Nat := 0
  props : List SymId := []
  callSigsList : List SigM := []
  constructSigRets : List TypeId := []
  aliasSym : Option SymId := none
  unionMembers : Option (List TypeId) := none
  refTarget : Option TypeId := none
  typeArgs : List TypeId := []

/-- A module's export table (`getExportsOfModule` keyed by name). -/
structure ModuleM where
  file : String := ""
  exports : List (String × SymId) := []

/-- The semantic snapshot. -/
structure SemModel where
  syms : List SymM := []
  types : List TypeM := []
  decls : List DeclR := []
  modules : List ModuleM := []
  declarationFiles : List String := []
  projectDir : String := ""

def symDefault : SymM := {}
def typeDefault : TypeM := {}
def declDefault : DeclR := {}

def getSym (m : SemModel) (i : SymId) : SymM := m.syms.getD i symDefault
def getType (m : SemModel) (i : TypeId) : TypeM := m.types.getD i typeDefault
def getDecl (m : SemModel) (i : DeclId) : DeclR := m.decls.getD i declDefault

/-! ### Basic checker helpers -/

/-- `resolveAlias`: follow `getAliasedSymbol` when the alias flag is set
(the checker resolves the whole chain in one call). -/
def resolveAlias (m : SemModel) (s : SymId) : SymId :=
  if (getSym m s).flags &&& sfAlias != 0 then (getSym m s).aliasTarget else s

/-- A target handed to `pathsTo`/`related`: a symbol or a declaration. -/
inductive Target where
  | symT (s : SymId)
  | declT (d : DeclId)
  deriving DecidableEq, Repr

/-- `toSymbol`: normalize a declaration or symbol into a symbol (name-node
lookup first, then the declaration's own `.symbol`). -/
def toSymbol (m : SemModel) : Target → Option SymId
  | .symT s => some s
  | .declT d =>
    match (getDecl m d).nameSym with
    | some s => some s
    | none => (getDecl m d).declSym

/-- `sameSymbol`: compare alias-resolved symbols by first-declaration
identity. -/
def sameSymbol (m : SemModel) (a b : Option SymId) : Bool :=
  match a, b with
  | some a, some b =>
    match (getSym m (resolveAlias m a)).decls.head?, (getSym m (resolveAlias m b)).decls.head? with
    | some ad, some bd => ad == bd
    | _, _ => false
  | _, _ => false

/-- `symbolHasRuntimeValue`: declaration-based quick win, then flag tests,
then a declaration-kind fallback. -/
def symbolHasRuntimeValue (m : SemModel) (sym : SymId) : Bool :=
  let s := resolveAlias m sym
  let sm := getSym m s
  if sm.valueDecl.isSome then true
  else if sm.flags &&& (sfFunction ||| sfClass ||| sfEnum ||| sfVariable) != 0 then true
  else if sm.flags &&& (sfNamespace ||| sfValueModule) != 0 then true
  else sm.decls.any (fun d =>
    let k := (getDecl m d).kind
    k == .variableDecl || k == .functionDecl || k == .classDecl || k == .enumDecl ||
    k == .moduleDecl || k == .sourceFile)

/-- `isClassLike` (on symbols): the value declaration (or first
declaration) is a class declaration/expression. -/
def isClassLikeSym (m : SemModel) (s : SymId) : Bool :=
  match ((getSym m s).valueDecl).orElse (fun _ => (getSym m s).decls.head?) with
  | some d => (getDecl m d).kind == .classDecl || (getDecl m d).kind == .classExpr
  | none => false

/-- `isStaticMember`: the first property/method declaration's static
modifier decides (the source returns inside its loop). -/
def isStaticMember (m : SemModel) (s : SymId) : Bool :=
  match (getSym m s).decls.find? (fun d =>
      (getDecl m d).kind == .propertyDecl || (getDecl m d).kind == .methodDecl) with
  | some d => (getDecl m d).isStatic
  | none => false

/-- `getExportedSymbol`: look the export name up in the module's export
table and resolve aliases. -/
def getExportedSymbolM (m : SemModel) (moduleFile exportName : String) : Option SymId :=
  match m.modules.find? (fun mo => mo.file == moduleFile) with
  | none => none
  | some mo =>
    match mo.exports.find? (fun p => p.1 == exportName) with
    | some p => some (resolveAlias m p.2)
    | none => none

/-- `typeKey`: BFS visited-set key from `requiresNew` plus the type's
symbol name and file (or an anonymous tag from the flags). -/
def typeKey (m : SemModel) (t : TypeM) (requiresNew : Bool) : String :=
  let id := match t.symId with
    | some s =>
      (getSym m s).name ++ "@" ++
        (match (getSym m s).decls.head? with
         | some d => (getDecl m d).file
         | none => "?")
    | none => "#anon(" ++ toString t.flags ++ ")"
  (if requiresNew then "new:" else "val:") ++ id

/-- Prefix test (JS `String.prototype.startsWith`). -/
def strStartsWith (s pre : String) : Bool := pre.toList.isPrefixOf s.toList

/-- Substring test (JS `String.prototype.includes`). -/
def containsSub (hay needle : String) : Bool :=
  let rec go : List Char → Bool
    | [] => needle.toList.isPrefixOf []
    | c :: rest => needle.toList.isPrefixOf (c :: rest) || go rest
  go hay.toList

def isDeclarationFile (m : SemModel) (f : String) : Bool :=
  m.declarationFiles.contains f

/-- `inThisPackage`: resolve declaration-less aliases, then require the
first declaration's file to be inside the project and outside
`node_modules` (the source's `.ts` and `.d.ts` branches return the same
test). -/
def inThisPackage (m : SemModel) (sym : SymId) : Bool :=
  let s := if (getSym m sym).decls.isEmpty && ((getSym m sym).flags &&& sfAlias != 0)
    then resolveAlias m sym else sym
  match (getSym m s).decls.head? with
  | none => false
  | some d =>
    let abs := (getDecl m d).file
    if containsSub abs "/node_modules/" then false
    else strStartsWith abs m.projectDir

/-- `isGlobalOrPrimitive`: primitive flags, stdlib declaration files
outside the project, and the fixed global-container name set. -/
def isGlobalOrPrimitive (m : SemModel) (t : TypeId) (sym : Option SymId) : Bool :=
  let tm := getType m t
  if tm.flags &&& tfPrimitiveMask != 0 then true
  else
    match (sym.orElse (fun _ => tm.symId)) with
    | none => false
    | some s =>
      match (getSym m s).decls.head? with
      | none => false
      | some d =>
        let sf := (getDecl m d).file
        if isDeclarationFile m sf && !(strStartsWith sf m.projectDir) then true
        else
          let name := (getSym m s).name
          name == "Promise" || name == "Map" || name == "Set" ||
          name == "Array" || name == "Uint8Array"

/-- `isAnonymousTypeSym`: no declarations, or only inline/anonymous
shapes. -/
def isAnonymousTypeSym (m : SemModel) (s : SymId) : Bool :=
  let ds := (getSym m s).decls
  if ds.isEmpty then true
  else ds.all (fun d =>
    let k := (getDecl m d).kind
    k == .typeLiteral || k == .functionDecl || k == .methodDecl ||
    k == .funcExpr || k == .arrowFn || k == .methodSig || k == .jsdocTypedef)

/-! ## Deep type-node walk (`symbolsFromTypeNodeDeep`) -/

/-- Shared output state of the symbol-collecting walks: symbols in
first-seen order, unique by first declaration. -/
structure SymWalkSt where
  out : List SymId := []
  seenDecl : List DeclId := []

/-- The `addSym` of the walks: skip symbols without declarations and
duplicates (keyed by first declaration). -/
def swAdd (m : SemModel) (st : SymWalkSt) (s : Option SymId) : SymWalkSt :=
  match s with
  | none => st
  | some s =>
    match (getSym m s).decls.head? with
    | none => st
    | some d =>
      if st.seenDecl.contains d then st
      else { out := st.out ++ [s], seenDecl := st.seenDecl ++ [d] }

mutual

/-- The recursive `visit` of `symbolsFromTypeNodeDeep`.  The source's
visited-node set keys on AST object identity; type-annotation nodes form
trees (no sharing), so the memo never fires and is omitted here. -/
def tnVisit (m : SemModel) : TypeNodeM → SymWalkSt → SymWalkSt
  | .typeRef refSym args, st => tnVisitList m args (swAdd m st refSym)
  | .keywordT, st => st
  | .arrayT e, st => tnVisit m e st
  | .unionT ms, st => tnVisitList m ms st
  | .intersectionT ms, st => tnVisitList m ms st
  | .parenT t, st => tnVisit m t st
  | .typeLitT mem, st => tnVisitMembers m mem st
  | .funcT ps r, st => tnVisitOpt m r (tnVisitOptList m ps st)
  | .mappedT c v, st => tnVisitOpt m v (tnVisitOpt m c st)
  | .indexedAccessT o i, st => tnVisit m i (tnVisit m o st)
  | .typeOperatorT t, st => tnVisit m t st
  | .conditionalT a b c d, st => tnVisit m d (tnVisit m c (tnVisit m b (tnVisit m a st)))
  | .predicateT inner _, st => tnVisitOpt m inner st
  | .typeQueryT s, st => swAdd m st s
  | .importT q args, st => tnVisitList m args (swAdd m st q)

def tnVisitList (m : SemModel) : List TypeNodeM → SymWalkSt → SymWalkSt
  | [], st => st
  | t :: rest, st => tnVisitList m rest (tnVisit m t st)

def tnVisitOpt (m : SemModel) : Option TypeNodeM → SymWalkSt → SymWalkSt
  | none, st => st
  | some t, st => tnVisit m t st

def tnVisitOptList (m : SemModel) : List (Option TypeNodeM) → SymWalkSt → SymWalkSt
  | [], st => st
  | t :: rest, st => tnVisitOptList m rest (tnVisitOpt m t st)

def tnVisitMember (m : SemModel) : TypeLitMemberM → SymWalkSt → SymWalkSt
  | .propSigT ty, st => tnVisitOpt m ty st
  | .methodSigT ps r, st => tnVisitOpt m r (tnVisitOptList m ps st)
  | .indexSigT ty, st => tnVisitOpt m ty st
  | .otherT, st => st

def tnVisitMembers (m : SemModel) : List TypeLitMemberM → SymWalkSt → SymWalkSt
  | [], st => st
  | mem :: rest, st => tnVisitMembers m rest (tnVisitMember m mem st)

end

def symbolsFromTypeNodeDeep (m : SemModel) (n : TypeNodeM) : List SymId :=
  (tnVisit m n {}).out

/-! ## `typeTargets`: referenced symbols of a `ts.Type` -/

structure TTSt where
  out : List SymId := []
  seenDecl : List DeclId := []
  visited : List TypeId := []

def ttPush (m : SemModel) (st : TTSt) (s : Option SymId) : TTSt :=
  match s with
  | none => st
  | some s =>
    match (getSym m s).decls.head? with
    | none => st
    | some d =>
      if st.seenDecl.contains d then st
      else { st with out := st.out ++ [s], seenDecl := st.seenDecl ++ [d] }

/-- The recursive `visit` of `typeTargets`, as a pre-order worklist (same
visit order and state threading as the source recursion): alias symbol
first; unions/intersections recurse into constituents; generic references
contribute the target symbol and recurse into type arguments; otherwise
the type's own symbol.  The `visitedTypes` memo makes the walk finite;
fuel is structural bookkeeping only (each step consumes one unit and
`ttFuel` over-approximates the number of steps any model can produce). -/
def ttVisitW (m : SemModel) : Nat → List TypeId → TTSt → TTSt
  | 0, _, st => st
  | _ + 1, [], st => st
  | fuel + 1, ty :: work, st =>
    if st.visited.contains ty then ttVisitW m fuel work st
    else
      let st1 := { st with visited := st.visited ++ [ty] }
      let t := getType m ty
      let st2 := ttPush m st1 t.aliasSym
      match t.unionMembers with
      | some ms => ttVisitW m fuel (ms ++ work) st2
      | none =>
        match t.refTarget with
        | some tgt =>
          let st3 := ttPush m st2 (getType m tgt).symId
          ttVisitW m fuel (t.typeArgs ++ work) st3
        | none => ttVisitW m fuel work (ttPush m st2 t.symId)

def ttFuel (m : SemModel) : Nat :=
  let maxChildren := m.types.foldl
    (fun a t => max a ((t.unionMembers.getD []).length + t.typeArgs.length)) 0
  (m.types.length + 2) * (maxChildren + 2) + 2

def typeTargets (m : SemModel) (t : TypeId) : List SymId :=
  (ttVisitW m (ttFuel m) [t] {}).out

/-- `symbolsFromHeritageEntry`: head symbol, then each type argument's
deep symbols, deduplicated together. -/
def symbolsFromHeritageEntry (m : SemModel) (h : HeritageEntryM) : List SymId :=
  let st := swAdd m {} h.headSym
  (h.args.foldl (fun st a =>
    (symbolsFromTypeNodeDeep m a).foldl (fun st s => swAdd m st (some s)) st) st).out

/-! ## Value-expression walk (`symbolsFromValueExprDeep`) -/

def maxRecursionDepth : Nat := 500

/-- Walk state: collected symbols, seen declarations, and the
`recursionDepth` counter.  In the source the counter is incremented on
every `visit` entry and decremented only on a visited-node (object
identity) early return; expression trees have no shared nodes, so the
memo never fires and the counter grows monotonically across the whole
walk. -/
structure VWSt where
  out : List SymId := []
  seen : List DeclId := []
  depth : Nat := 0

def vwPush (m : SemModel) (st : VWSt) (s : Option SymId) : VWSt :=
  match s with
  | none => st
  | some s =>
    if (getSym m s).flags &&& sfTypeParameter != 0 then st
    else
      match (getSym m s).decls.head? with
      | none => st
      | some d =>
        if st.seen.contains d then st
        else { st with out := st.out ++ [s], seen := st.seen ++ [d] }

/-- `getPropertyOfType` by property-symbol name. -/
def getPropOfType (m : SemModel) (t : TypeId) (name : String) : Option SymId :=
  (getType m t).props.find? (fun p => (getSym m p).name == name)

mutual

/-- The recursive `visit` of `symbolsFromValueExprDeep`, including the
defensive depth guard that throws past depth 500. -/
def vVisit (m : SemModel) (e : ExprM) (st : VWSt) : Except String VWSt :=
  let depth := st.depth + 1
  if depth > maxRecursionDepth then
    .error ("Stack overflow prevented in symbolsFromValueExprDeep at depth " ++ toString depth)
  else
    let st := { st with depth := depth }
    match e with
    | .parenE inner => vVisit m inner st
    | .awaitE inner => vVisit m inner st
    | .identE s => .ok (vwPush m st s)
    | .thisE => .ok st
    | .superE => .ok st
    | .strLitE _ => .ok st
    | .propAccessE obj name wholeSym nameSym objType => do
      let st ← vVisit m obj st
      let propSym := (wholeSym.orElse (fun _ => nameSym)).orElse
        (fun _ => getPropOfType m objType name)
      .ok (vwPush m st propSym)
    | .elemAccessE obj key objType => do
      let st ← vVisit m obj st
      match key with
      | .strKey s => .ok (vwPush m st (getPropOfType m objType s))
      | .identKey ks =>
        match ks with
        | none => .ok st
        | some ksym =>
          match ((getSym m ksym).valueDecl).orElse (fun _ => (getSym m ksym).decls.head?) with
          | some kd =>
            if (getDecl m kd).kind == .variableDecl then
              match (getDecl m kd).varInit with
              | some (.strLitE s) => .ok (vwPush m st (getPropOfType m objType s))
              | _ => .ok st
            else .ok st
          | none => .ok st
      | .otherKey => .ok st
    | .callE callee sigSym calleeSym =>
      vVisit m callee (vwPush m st (sigSym.orElse (fun _ => calleeSym)))
    | .newE callee sigSym exprSym _ =>
      vVisit m callee (vwPush m st (sigSym.orElse (fun _ => exprSym)))
    | .condE t f => do
      let st ← vVisit m t st
      vVisit m f st
    | .binE _ l r => do
      -- short-circuit operators visit both operands and return; all other
      -- binary operators reach the forEachChild default whose expression
      -- children are the same two operands
      let st ← vVisit m l st
      vVisit m r st
    | .fnExprE _ _ body => vVisitList m body st
    | .otherE children => vVisitList m children st

def vVisitList (m : SemModel) : List ExprM → VWSt → Except String VWSt
  | [], st => .ok st
  | e :: rest, st => do
    let st2 ← vVisit m e st
    vVisitList m rest st2

end

def symbolsFromValueExprDeep (m : SemModel) (e : ExprM) : Except String (List SymId) :=
  match vVisit m e {} with
  | .ok st => .ok st.out
  | .error msg => .error msg

/-! ## `initializerTargetsSymbol` (alias shortcut of `pathsTo`)

The source follows variable-initializer chains (mutually with
`variableDeclInitializerTargets`) with NO visited set and NO depth limit,
so it diverges on cyclic chains.  The embedding is indexed by a recursion
budget and returns `none` when the budget runs out before the recursion
bottoms out: the source returns `b` exactly when some budget yields
`some b`, and diverges exactly when every budget yields `none` (the walk
is deterministic, so a run that never bottoms out within any budget is an
infinite recursion). -/

def initializerTargetsSymbol (m : SemModel) : Nat → ExprM → SymId → Option Bool
  | 0, _, _ => none
  | fuel + 1, init, target =>
    match init with
    | .identE s =>
      match s with
      | none => some false
      | some sym =>
        let res := resolveAlias m sym
        if sameSymbol m (some res) (some target) then some true
        else
          match ((getSym m res).valueDecl).orElse (fun _ => (getSym m res).decls.head?) with
          | some d =>
            if (getDecl m d).kind == .variableDecl then
              match (getDecl m d).varInit with
              | some i2 => initializerTargetsSymbol m fuel i2 target
              | none => some false
            else some false
          | none => some false
    | .propAccessE _ _ _ nameSym _ =>
      match nameSym with
      | some ns => some (sameSymbol m (some (resolveAlias m ns)) (some target))
      | none => some false
    | .elemAccessE _ key objType =>
      match key with
      | .strKey s =>
        match getPropOfType m objType s with
        | some p => some (sameSymbol m (some (resolveAlias m p)) (some target))
        | none => some false
      | _ => some false
    | _ => some false

/-! ## `related`: package-local types referenced by a target's public
interface -/

structure RelatedItem where
  symbol : SymId
  file : Option String := none
  line : Option Nat := none
  column : Option Nat := none
  deriving DecidableEq, Repr

/-- The accumulating `addSet`, ordered and keyed by declaration. -/
abbrev AddSet := List (DeclId × RelatedItem)

/-- `locOfDecl`-based item payload. -/
def mkRelItem (m : SemModel) (s : SymId) (d : DeclId) : RelatedItem :=
  { symbol := s, file := some (getDecl m d).file,
    line := some (getDecl m d).line, column := some (getDecl m d).column }

def isFunctionLikeKind (k : DKind) : Bool :=
  k == .functionDecl || k == .methodDecl || k == .ctorDecl || k == .getAccessor ||
  k == .setAccessor || k == .funcExpr || k == .arrowFn || k == .methodSig ||
  k == .callSig || k == .constructSig || k == .indexSig

def rwalkFuel (m : SemModel) : Nat := m.decls.length + 1

/-- The parent walk of `addContainerIfAny`: the name symbol of the first
enclosing class/interface (fuel covers any parent chain drawn from the
finite declaration table). -/
def containerSymOf (m : SemModel) : Nat → Option DeclId → Option SymId
  | 0, _ => none
  | _, none => none
  | fuel + 1, some p =>
    let k := (getDecl m p).kind
    if k == .interfaceDecl || k == .classDecl || k == .classExpr then
      (getDecl m p).nameSym
    else containerSymOf m fuel (getDecl m p).parent

/-- The `isTopLevel` parent walk of `related`'s value-reference filter. -/
def isTopLevelDecl (m : SemModel) : Nat → Option DeclId → Bool
  | 0, _ => true
  | _, none => true
  | fuel + 1, some p =>
    if (getDecl m p).kind == .sourceFile then true
    else if isFunctionLikeKind (getDecl m p).kind then false
    else isTopLevelDecl m fuel (getDecl m p).parent

/-- The strict `add` of `related`: skip type parameters, resolve aliases
(except for type aliases), require project-local non-anonymous symbols,
filter globals/primitives, and deduplicate by declaration. -/
def relAdd (m : SemModel) (targetDecl : DeclId) (acc : AddSet) (s : SymId) : AddSet :=
  if (getSym m s).flags &&& sfTypeParameter != 0 then acc
  else
    let isTypeAlias := (getSym m s).flags &&& sfTypeAlias != 0
    let rs := if isTypeAlias then s else resolveAlias m s
    if !(inThisPackage m rs) then acc
    else if isAnonymousTypeSym m rs then acc
    else
      let globalSkip :=
        if !isTypeAlias then
          isGlobalOrPrimitive m (getSym m rs).declaredType (some rs)
        else false
      if globalSkip then acc
      else
        match (getSym m rs).decls.head? with
        | none => acc
        | some d =>
          if d == targetDecl then acc
          else if acc.any (fun p => p.1 == d) then acc
          else acc ++ [(d, mkRelItem m rs d)]

/-- The lenient `addValueRef` of `related`: no alias resolution, no
primitive/anonymous filtering, but top-level project-local declarations
only. -/
def relAddValueRef (m : SemModel) (targetDecl : DeclId) (acc : AddSet) (s : SymId) : AddSet :=
  if (getSym m s).flags &&& sfTypeParameter != 0 then acc
  else
    match (getSym m s).decls.head? with
    | none => acc
    | some d =>
      if d == targetDecl then acc
      else if !(isTopLevelDecl m (rwalkFuel m) (getDecl m d).parent) then acc
      else if !(inThisPackage m s) then acc
      else if acc.any (fun p => p.1 == d) then acc
      else acc ++ [(d, mkRelItem m s d)]

/-- `addPredicateTypeFromNode`: when the annotation is a type predicate
`x is Y` with an inner type node, add the targets of the checker type of
`Y`. -/
def addPredicateTypeFromNode (m : SemModel) (targetDecl : DeclId) (acc : AddSet)
    (tyAnn : Option TypeNodeM) : AddSet :=
  match tyAnn with
  | some (.predicateT (some _) innerType) =>
    (typeTargets m innerType).foldl (relAdd m targetDecl) acc
  | _ => acc

/-- The engine-instance state `related` mutates: the lazily-created
`relatedCallStack` field. -/
structure RState where
  relatedCallStack : Option (List String) := none
  deriving DecidableEq, Repr

/-- The cycle-detection key: `fileName:start:SyntaxKind`. -/
def declKeyOf (m : SemModel) (d : DeclId) : String :=
  (getDecl m d).file ++ ":" ++ toString (getDecl m d).start ++ ":" ++
    kindName (getDecl m d).kind

/-- `related`, with the engine state passed explicitly.  Faithful to the
source's control flow: the `declKey` is pushed onto the instance-level
`relatedCallStack` before the kind dispatch, and only the final default
branch deletes it again — every kind-specific branch returns with the key
still on the stack, and the value-expression walk's depth guard propagates
its exception with the key still on the stack. -/
def related (m : SemModel) (st : RState) (target : Target) :
    Except String (List RelatedItem) × RState :=
  let stack0 := st.relatedCallStack.getD []
  let st1 : RState := { relatedCallStack := some stack0 }
  let resolved : Option (DeclId × SymId) :=
    match target with
    | .symT s =>
      match ((getSym m s).valueDecl).orElse (fun _ => (getSym m s).decls.head?) with
      | some d => some (d, s)
      | none => none
    | .declT d =>
      match toSymbol m (.declT d) with
      | some s => some (d, s)
      | none => none
  match resolved with
  | none => (.ok [], st1)
  | some (decl, sym) =>
    let declKey := declKeyOf m decl
    if stack0.contains declKey then (.ok [], st1)
    else
      let stack2 := declKey :: stack0
      let st2 : RState := { relatedCallStack := some stack2 }
      let dr := getDecl m decl
      let addAll := fun (acc : AddSet) (syms : List SymId) => syms.foldl (relAdd m decl) acc
      let addParamAnns := fun (acc : AddSet) (ps : List (Option TypeNodeM)) =>
        ps.foldl (fun acc p =>
          match p with
          | some tn => addAll acc (symbolsFromTypeNodeDeep m tn)
          | none => acc) acc
      if dr.kind == .typeAlias then
        let syms := match dr.aliasType with
          | some t => symbolsFromTypeNodeDeep m t
          | none => []
        (.ok ((addAll [] syms).map Prod.snd), st2)
      else if dr.kind == .interfaceDecl then
        let acc := dr.heritage.foldl (fun acc h => addAll acc (symbolsFromHeritageEntry m h)) []
        let acc := dr.ifaceMembers.foldl (fun acc mem =>
          match mem with
          | .imethodSig ps r | .iconstructSig ps r =>
            let acc := addParamAnns acc ps
            let acc := match r with
              | some tn => addAll acc (symbolsFromTypeNodeDeep m tn)
              | none => acc
            addPredicateTypeFromNode m decl acc r
          | .ipropertySig (some tn) => addAll acc (symbolsFromTypeNodeDeep m tn)
          | .iindexSig (some tn) => addAll acc (symbolsFromTypeNodeDeep m tn)
          | _ => acc) acc
        (.ok (acc.map Prod.snd), st2)
      else if dr.kind == .classDecl || dr.kind == .classExpr then
        let acc := dr.heritage.foldl (fun acc h => addAll acc (symbolsFromHeritageEntry m h)) []
        let acc := dr.classMembers.foldl (fun acc mem =>
          match mem with
          | .cctor pub ps => if !pub then acc else addParamAnns acc ps
          | .cmethod pub ps r =>
            if !pub then acc else
            match r with
            | some rt => addAll (addParamAnns acc ps) (symbolsFromTypeNodeDeep m rt)
            | none => acc
          | .caccessor pub r =>
            if !pub then acc else
            match r with
            | some rt => addAll acc (symbolsFromTypeNodeDeep m rt)
            | none => acc
          | .cproperty pub tyAnn inferred =>
            if !pub then acc else
            match tyAnn with
            | some tn => addAll acc (symbolsFromTypeNodeDeep m tn)
            | none => addAll acc (typeTargets m inferred)
          | .cother => acc) acc
        (.ok (acc.map Prod.snd), st2)
      else if dr.kind == .functionDecl || dr.kind == .methodDecl || dr.kind == .funcExpr ||
          dr.kind == .methodSig || dr.kind == .arrowFn then
        let acc := match containerSymOf m (rwalkFuel m) dr.parent with
          | some cs => relAdd m decl [] cs
          | none => []
        if dr.fnHasSig then
          let acc := addParamAnns acc dr.fnParams
          let acc := match dr.fnReturnAnn with
            | some tn => addAll acc (symbolsFromTypeNodeDeep m tn)
            | none => addAll acc (typeTargets m dr.fnSigReturnType)
          let acc := addPredicateTypeFromNode m decl acc dr.fnReturnAnn
          (.ok (acc.map Prod.snd), st2)
        else
          let t := getType m (getSym m sym).typeOf
          let acc := t.callSigsList.foldl (fun acc sig =>
            addAll (addParamAnns acc sig.paramAnns) (typeTargets m sig.ret)) acc
          (.ok (acc.map Prod.snd), st2)
      else if dr.kind == .variableDecl then
        match (match dr.varInit with
               | some init => symbolsFromValueExprDeep m init
               | none => .ok []) with
        | .error msg => (.error msg, st2)
        | .ok valueSyms =>
          let acc := valueSyms.foldl (relAddValueRef m decl) []
          let acc := match dr.varTypeAnn with
            | some tn => addAll acc (symbolsFromTypeNodeDeep m tn)
            | none =>
              match dr.varInit with
              | some (.newE _ _ _ calleeType) => addAll acc (typeTargets m calleeType)
              | some (.fnExprE ps sigRet _) =>
                match sigRet with
                | some ret => addAll (addParamAnns acc ps) (typeTargets m ret)
                | none => acc
              | _ => addAll acc (typeTargets m (getSym m sym).typeOf)
          let acc := match containerSymOf m (rwalkFuel m) dr.parent with
            | some cs => relAdd m decl acc cs
            | none => acc
          (.ok (acc.map Prod.snd), st2)
      else if dr.kind == .propertySig || dr.kind == .propertyDecl then
        let acc := match containerSymOf m (rwalkFuel m) dr.parent with
          | some cs => relAdd m decl [] cs
          | none => []
        let acc := match dr.propTypeAnn with
          | some tn => addAll acc (symbolsFromTypeNodeDeep m tn)
          | none => addAll acc (typeTargets m (getSym m sym).typeOf)
        (.ok (acc.map Prod.snd), st2)
      else
        let acc := addAll [] (typeTargets m (getSym m sym).typeOf)
        let acc := match containerSymOf m (rwalkFuel m) dr.parent with
          | some cs => relAdd m decl acc cs
          | none => acc
        (.ok (acc.map Prod.snd), { relatedCallStack := some (stack2.erase declKey) })

/-! ## Export roots, access paths, and the engine instance -/

structure FoundExportM where
  exportName : String := ""
  importKind : String := "named"
  moduleFile : String := ""
  isTypeOnly : Bool := false
  declarationFile : String := ""
  reexportedFrom : Option String := none
  symbol : SymId := 0
  deriving DecidableEq, Repr

inductive AccessStepM where
  | staticS (member : String)
  | instanceS (member : String)
  | callS (member : String)
  deriving DecidableEq, Repr

def AccessStepM.memberName : AccessStepM → String
  | .staticS mn => mn
  | .instanceS mn => mn
  | .callS mn => mn

def AccessStepM.isCall : AccessStepM → Bool
  | .callS _ => true
  | _ => false

structure AccessPathM where
  root : FoundExportM
  requiresNew : Bool := false
  steps : List AccessStepM := []
  pretty : String := ""
  deriving DecidableEq, Repr

/-- The engine instance: the semantic snapshot plus the export roots the
constructor pre-computes (`this.allRoots = this.list()`). -/
structure TS where
  m : SemModel
  allRoots : List FoundExportM := []

/-- `this.valueRoots = this.allRoots.filter((e) => !e.isTypeOnly)`. -/
def TS.valueRoots (e : TS) : List FoundExportM :=
  e.allRoots.filter (fun r => !r.isTypeOnly)

def getExportedSymbol (e : TS) (root : FoundExportM) : Option SymId :=
  getExportedSymbolM e.m root.moduleFile root.exportName

/-- `toAccessPath` (path-finder variant): render the pretty chain, with a
"(...)" / "[...]" suffix on zero-step paths depending on whether the
root's value type is callable. -/
def toAccessPath (e : TS) (root : FoundExportM) (steps : List AccessStepM)
    (requiresNew : Bool) : AccessPathM :=
  let chain := (steps.map (fun s =>
    match s with
    | .callS mn => "." ++ mn ++ "(...)"
    | .staticS mn => "." ++ mn
    | .instanceS mn => "." ++ mn)).foldl (· ++ ·) ""
  let rootName := if root.exportName == "default" then "<default>" else root.exportName
  let rootSuffix :=
    if steps.isEmpty then
      match getExportedSymbol e root with
      | some sym =>
        if !(getType e.m (getSym e.m sym).typeOf).callSigsList.isEmpty then "(...)"
        else "[...]"
      | none => ""
    else ""
  { root := root, requiresNew := requiresNew, steps := steps,
    pretty := (if requiresNew then "new " ++ rootName ++ "(...)" else rootName) ++
      rootSuffix ++ chain }

/-- The `dedupe` utility (first occurrence per key wins). -/
def dedupeBy {α : Type} (arr : List α) (key : α → String) : List α :=
  (arr.foldl (fun (p : List String × List α) item =>
    if p.1.contains (key item) then p
    else (p.1 ++ [key item], p.2 ++ [item])) ([], [])).2

/-! ## The member BFS of `pathsTo` -/

structure BfsNode where
  ty : TypeId
  steps : List AccessStepM := []
  requiresNew : Bool := false
  deriving DecidableEq, Repr

/-- The per-property body of the BFS loop: callable members yield only a
call step on a direct hit (by declaration or symbol identity) and are not
enqueued; non-callable members yield a static/instance step on a direct
hit and are always enqueued for deeper traversal. -/
def propStep (e : TS) (targetResolved : SymId) (targetDecl : DeclId)
    (root : FoundExportM) (node : BfsNode)
    (pn : List AccessPathM × List BfsNode) (p : SymId) :
    List AccessPathM × List BfsNode :=
  let m := e.m
  let pName := (getSym m p).name
  let resolvedP := resolveAlias m p
  let pType := (getSym m p).typeOf
  let isCallable := !(getType m pType).callSigsList.isEmpty
  if isCallable then
    if (getSym m resolvedP).decls.head? == some targetDecl ||
        sameSymbol m (some resolvedP) (some targetResolved) then
      (pn.1 ++ [toAccessPath e root (node.steps ++ [.callS pName]) node.requiresNew], pn.2)
    else pn
  else
    let stepKind : AccessStepM :=
      if isStaticMember m p then .staticS pName else .instanceS pName
    let paths' :=
      if sameSymbol m (some resolvedP) (some targetResolved) then
        pn.1 ++ [toAccessPath e root (node.steps ++ [stepKind]) node.requiresNew]
      else pn.1
    let newNode : BfsNode :=
      { ty := pType, steps := node.steps ++ [stepKind], requiresNew := node.requiresNew }
    (paths', pn.2 ++ [newNode])

/-- Fold `propStep` over the type's properties. -/
def processProps (e : TS) (targetResolved : SymId) (targetDecl : DeclId)
    (root : FoundExportM) (node : BfsNode) (t : TypeM) :
    List AccessPathM × List BfsNode :=
  t.props.foldl (propStep e targetResolved targetDecl root node) ([], [])

/-- The BFS loop of `pathsTo`, with the visited set keyed by
`typeKey(type, requiresNew)`.  Fuel is structural bookkeeping; `bfsFuel`
below provably suffices (each iteration either discards a queue entry or
marks a fresh key visited). -/
def bfsLoop (e : TS) (targetResolved : SymId) (targetDecl : DeclId) (root : FoundExportM) :
    Nat → List BfsNode → Finset String → List AccessPathM → Option (List AccessPathM)
  | _, [], _, acc => some acc
  | 0, _ :: _, _, _ => none
  | fuel + 1, node :: rest, seen, acc =>
    let t := getType e.m node.ty
    let key := typeKey e.m t node.requiresNew
    if key ∈ seen then bfsLoop e targetResolved targetDecl root fuel rest seen acc
    else
      let pr := processProps e targetResolved targetDecl root node t
      let ctorNodes : List BfsNode :=
        match t.constructSigRets.head? with
        | some inst => [{ ty := inst, steps := node.steps, requiresNew := true }]
        | none => []
      bfsLoop e targetResolved targetDecl root fuel (rest ++ pr.2 ++ ctorNodes)
        (insert key seen) (acc ++ pr.1)

/-- All visited-set keys any BFS over this model can produce. -/
def keyUniverse (m : SemModel) : Finset String :=
  ((typeDefault :: m.types).flatMap
    (fun t => [typeKey m t false, typeKey m t true])).toFinset

/-- Bound on the nodes one BFS iteration can enqueue. -/
def maxEnq (m : SemModel) : Nat :=
  (typeDefault :: m.types).foldl (fun a t => max a (t.props.length + 1)) 0

def bfsFuel (m : SemModel) : Nat := 2 + (keyUniverse m).card * (maxEnq m + 1)

/-! ## `pathsTo` -/

/-- The synthetic direct-submodule root: when the target's own source file
exports the target's name as a runtime value, add an extra named root for
that file. -/
def syntheticRoots (m : SemModel) (targetResolved : SymId) (targetDecl : DeclId) :
    List FoundExportM :=
  let sfFile := (getDecl m targetDecl).file
  match m.modules.find? (fun mo => mo.file == sfFile) with
  | none => []
  | some mo =>
    let name := (getSym m targetResolved).name
    match mo.exports.find? (fun p => p.1 == name) with
    | none => []
    | some p =>
      let resolved := resolveAlias m p.2
      if symbolHasRuntimeValue m resolved then
        [{ exportName := name, importKind := "named", moduleFile := sfFile,
           isTypeOnly := false, declarationFile := sfFile,
           reexportedFrom := none, symbol := resolved }]
      else []

/-- The per-root body of `pathsTo`: direct hit, type-only cutoff, alias
shortcut through a variable initializer, then the member BFS.  `none`
means the search did not finish: the initializer walk did not bottom out
within the `ifuel` budget, or the BFS ran out of fuel (the latter is
impossible, `bfsLoop_isSome`). -/
def perRoot (e : TS) (ifuel : Nat) (targetResolved : SymId) (targetDecl : DeclId)
    (targetIsValue : Bool) (root : FoundExportM) : Option (List AccessPathM) :=
  match getExportedSymbol e root with
  | none => some []
  | some expSym =>
    let m := e.m
    let expResolved := resolveAlias m expSym
    if sameSymbol m (some expResolved) (some targetResolved) then
      some [toAccessPath e root [] false]
    else if !targetIsValue then some []
    else
      let aliasHit : Option Bool :=
        match ((getSym m expResolved).valueDecl).orElse
            (fun _ => (getSym m expResolved).decls.head?) with
        | some d =>
          if (getDecl m d).kind == .variableDecl then
            match (getDecl m d).varInit with
            | some init => initializerTargetsSymbol m ifuel init targetResolved
            | none => some false
          else some false
        | none => some false
      match aliasHit with
      | none => none
      | some true => some [toAccessPath e root [] false]
      | some false =>
        let startNodes : List BfsNode :=
          if isClassLikeSym m expResolved then
            [{ ty := (getSym m expResolved).typeOf, steps := [], requiresNew := false },
             { ty := (getSym m expResolved).declaredType, steps := [], requiresNew := true }]
          else
            [{ ty := (getSym m expResolved).typeOf, steps := [], requiresNew := false }]
        bfsLoop e targetResolved targetDecl root (bfsFuel m) startNodes ∅ []

/-- `pathsTo` with an explicit recursion budget for the initializer walk:
`none` when some root's search did not finish within that budget (or on
BFS fuel exhaustion, shown impossible in `bfsLoop_isSome`). -/
def pathsToOpt (e : TS) (ifuel : Nat) (target : Target) : Option (List AccessPathM) :=
  match toSymbol e.m target with
  | none => some []
  | some targetSym =>
    match (getSym e.m targetSym).decls.head? with
    | none => some []
    | some targetDecl =>
      let targetResolved := resolveAlias e.m targetSym
      let targetIsValue := symbolHasRuntimeValue e.m targetResolved
      let roots := (if targetIsValue then e.valueRoots else e.allRoots) ++
        syntheticRoots e.m targetResolved targetDecl
      match roots.foldlM (fun (acc : List AccessPathM) root =>
          (perRoot e ifuel targetResolved targetDecl targetIsValue root).map
            (fun ps => acc ++ ps)) [] with
      | some paths =>
        some (dedupeBy paths
          (fun p => p.root.moduleFile ++ "::" ++ p.root.exportName ++ "::" ++ p.pretty))
      | none => none

/-- The initializer walk is deterministic, so a convergent run never
revisits a declaration and bottoms out within `decls.length + 1` steps;
this budget therefore recovers the result of every run of the source that
terminates at all, while a divergent run (claim C6) shows up as `none` in
`pathsToOpt` at every budget. -/
def pathsTo (e : TS) (target : Target) : List AccessPathM :=
  (pathsToOpt e (e.m.decls.length + 1) target).getD []

/-! ## `rankPaths` -/

structure RankOptionsM where
  entrypoints : List String := []
  preferredRootNames : Option (List String) := none
  targetIsType : Bool := false
  deriving DecidableEq, Repr

structure RankedPathM where
  root : FoundExportM
  requiresNew : Bool := false
  steps : List AccessStepM := []
  pretty : String := ""
  score : Int := 0
  deriving DecidableEq, Repr

def splitOnSlash (s : String) : List String :=
  (splitChars (· == '/') s.toList).map List.asString

/-- `looksLikeEntrypoint`: `index.ts`, `src/index.ts`, or any file whose
basename matches `index.(ts|tsx|mts|cts)`. -/
def looksLikeEntrypoint (rel : String) : Bool :=
  rel == "index.ts" || rel == "src/index.ts" ||
    (match (splitOnSlash rel).getLast? with
     | some base =>
       base == "index.ts" || base == "index.tsx" || base == "index.mts" || base == "index.cts"
     | none => false)

/-- `path.relative(projectDir, file)` for files under the project
directory. -/
def projectRelM (projectDir file : String) : String :=
  if (projectDir ++ "/").toList.isPrefixOf file.toList then
    ((file.toList).drop (projectDir ++ "/").length).asString
  else file

/-- The per-path score of `rankPaths`: base 100, entrypoint / preferred /
default-export / class-root / type-entrypoint bonuses, and length /
private-step / `_client` / folder-depth / namespace penalties. -/
def scorePath (e : TS) (opts : Option RankOptionsM) (p : AccessPathM) : Int :=
  let m := e.m
  let entryset := (opts.map (fun o => o.entrypoints)).getD []
  let preferred := (opts.bind (fun o => o.preferredRootNames)).getD ["default", "OpenAI"]
  let targetIsType := (opts.map (fun o => o.targetIsType)).getD false
  let rel := projectRelM m.projectDir p.root.moduleFile
  let stepCount := (p.steps.filter (fun s => !s.isCall)).length
  let privateSteps := (p.steps.filter (fun s =>
    strStartsWith s.memberName "_" || strStartsWith s.memberName "#")).length
  let hasClientHop := p.steps.any (fun s => s.memberName == "_client")
  let depth := (splitOnSlash rel).length - 1
  let isEntrypoint := entryset.contains p.root.moduleFile || looksLikeEntrypoint rel
  let entrypointBaseBonus : Int := if isEntrypoint then 50 else 0
  let preferredRootBonus : Int := if preferred.contains p.root.exportName then 20 else 0
  let defaultExportBonus : Int := if p.root.exportName == "default" then 15 else 0
  let typeEntrypointBonus : Int := if targetIsType && isEntrypoint then 20 else 0
  let typeNamespacePenalty : Int :=
    if targetIsType && p.root.importKind == "namespace" then 5 else 0
  let classRootBonus : Int :=
    match getExportedSymbol e p.root with
    | none => 0
    | some sym =>
      match ((getSym m sym).valueDecl).orElse (fun _ => (getSym m sym).decls.head?) with
      | some d =>
        if (getDecl m d).kind == .classDecl || (getDecl m d).kind == .classExpr then 10
        else 0
      | none => 0
  let depthFactor : Int := if targetIsType then 4 else 3
  let lengthPenalty : Int := (stepCount : Int) * 10
  let privatePenalty : Int := (privateSteps : Int) * 6
  let clientPenalty : Int := if hasClientHop then 12 else 0
  let depthPenalty : Int := (max 0 ((depth : Int) - 1)) * depthFactor
  100 + entrypointBaseBonus + typeEntrypointBonus + preferredRootBonus +
    defaultExportBonus + classRootBonus - lengthPenalty - privatePenalty -
    clientPenalty - depthPenalty - typeNamespacePenalty

/-- The sort order of `rankPaths`: the JS comparator
`b.score - a.score || a.pretty.length - b.pretty.length` (descending
score, ties broken by shorter pretty string). -/
def rankLe (a b : RankedPathM) : Prop :=
  a.score > b.score ∨ (a.score = b.score ∧ a.pretty.length ≤ b.pretty.length)

instance : DecidableRel rankLe := fun a b =>
  inferInstanceAs (Decidable (a.score > b.score ∨
    (a.score = b.score ∧ a.pretty.length ≤ b.pretty.length)))

instance : IsTotal RankedPathM rankLe where
  total := by
    intro a b
    unfold rankLe
    rcases lt_trichotomy a.score b.score with h | h | h
    · exact Or.inr (Or.inl h)
    · rcases Nat.le_total a.pretty.length b.pretty.length with hl | hl
      · exact Or.inl (Or.inr ⟨h, hl⟩)
      · exact Or.inr (Or.inr ⟨h.symm, hl⟩)
    · exact Or.inl (Or.inl h)

instance : IsTrans RankedPathM rankLe where
  trans := by
    intro a b c hab hbc
    unfold rankLe at *
    rcases hab with h1 | ⟨h1, l1⟩
    · rcases hbc with h2 | ⟨h2, _⟩
      · exact Or.inl (lt_trans h2 h1)
      · exact Or.inl (h2 ▸ h1)
    · rcases hbc with h2 | ⟨h2, l2⟩
      · exact Or.inl (h1 ▸ h2)
      · exact Or.inr ⟨h1.trans h2, l1.trans l2⟩

/-- `rankPaths`: score every path, then sort by the comparator (a stable
sort realizing the comparator's total preorder, as `Array.prototype.sort`
does). -/
def rankPaths (e : TS) (paths : List AccessPathM) (opts : Option RankOptionsM) :
    List RankedPathM :=
  let scored := paths.map (fun p =>
    { root := p.root, requiresNew := p.requiresNew, steps := p.steps,
      pretty := p.pretty, score := scorePath e opts p : RankedPathM })
  List.insertionSort rankLe scored

/-! ## Termination of the BFS (claim C6) -/

theorem getType_mem (m : SemModel) (i : TypeId) :
    getType m i ∈ typeDefault :: m.types := by
  unfold getType
  rw [List.getD_eq_getElem?_getD]
  cases hget : m.types[i]? with
  | none => simp
  | some t =>
    right
    simp only [Option.getD_some]
    obtain ⟨hlt, ht⟩ := List.getElem?_eq_some.mp hget
    exact ht ▸ m.types.getElem_mem hlt

theorem typeKey_mem_universe (m : SemModel) (i : TypeId) (b : Bool) :
    typeKey m (getType m i) b ∈ keyUniverse m := by
  unfold keyUniverse
  rw [List.mem_toFinset]
  refine List.mem_flatMap.mpr ⟨getType m i, getType_mem m i, ?_⟩
  cases b <;> simp

theorem propStep_snd_length (e : TS) (tr : SymId) (td : DeclId) (root : FoundExportM)
    (node : BfsNode) (pn : List AccessPathM × List BfsNode) (p : SymId) :
    (propStep e tr td root node pn p).2.length ≤ pn.2.length + 1 := by
  unfold propStep
  dsimp only
  split_ifs <;> simp

theorem processProps_snd_length (e : TS) (tr : SymId) (td : DeclId) (root : FoundExportM)
    (node : BfsNode) (t : TypeM) :
    (processProps e tr td root node t).2.length ≤ t.props.length := by
  unfold processProps
  suffices h : ∀ (l : List SymId) (pn : List AccessPathM × List BfsNode),
      (l.foldl (propStep e tr td root node) pn).2.length ≤ pn.2.length + l.length by
    simpa using h t.props ([], [])
  intro l
  induction l with
  | nil => intro pn; simp
  | cons p rest ih =>
    intro pn
    have h1 := propStep_snd_length e tr td root node pn p
    have h2 := ih (propStep e tr td root node pn p)
    simp only [List.foldl_cons, List.length_cons]
    omega

theorem foldl_max_init_le (g : TypeM → Nat) (l : List TypeM) (a : Nat) :
    a ≤ l.foldl (fun acc t => max acc (g t)) a := by
  induction l generalizing a with
  | nil => simp
  | cons t rest ih => exact le_trans (le_max_left a (g t)) (ih _)

theorem foldl_max_mem_le (g : TypeM → Nat) (l : List TypeM) (a : Nat) (t : TypeM)
    (ht : t ∈ l) : g t ≤ l.foldl (fun acc t => max acc (g t)) a := by
  induction l generalizing a with
  | nil => cases ht
  | cons s rest ih =>
    rcases List.mem_cons.mp ht with h | h
    · subst h
      exact le_trans (le_max_right a (g t)) (foldl_max_init_le g rest _)
    · exact ih _ h

theorem props_le_maxEnq (m : SemModel) (i : TypeId) :
    (getType m i).props.length + 1 ≤ maxEnq m := by
  unfold maxEnq
  exact foldl_max_mem_le (fun t => t.props.length + 1) _ 0 _ (getType_mem m i)

/-- Fuel sufficiency for the BFS loop: each iteration either discards a
queue entry or marks a fresh key visited, and fresh keys are drawn from
the finite `keyUniverse`. -/
theorem bfsLoop_isSome (e : TS) (tr : SymId) (td : DeclId) (root : FoundExportM) :
    ∀ (fuel : Nat) (queue : List BfsNode) (seen : Finset String) (acc : List AccessPathM),
      seen ⊆ keyUniverse e.m →
      queue.length + ((keyUniverse e.m).card - seen.card) * (maxEnq e.m + 1) ≤ fuel →
      (bfsLoop e tr td root fuel queue seen acc).isSome = true := by
  intro fuel
  induction fuel with
  | zero =>
    intro queue seen acc _ hle
    cases queue with
    | nil => rw [bfsLoop]; rfl
    | cons n rest => simp at hle
  | succ f ih =>
    intro queue seen acc hsub hle
    cases queue with
    | nil => rw [bfsLoop]; rfl
    | cons node rest =>
      rw [bfsLoop]
      by_cases hkey :
        typeKey e.m (getType e.m node.ty) node.requiresNew ∈ seen
      · rw [if_pos hkey]
        refine ih rest seen acc hsub ?_
        simp only [List.length_cons] at hle
        omega
      · rw [if_neg hkey]
        have hkeyuniv := typeKey_mem_universe e.m node.ty node.requiresNew
        have hcardlt : seen.card < (keyUniverse e.m).card := by
          refine Finset.card_lt_card ?_
          rw [Finset.ssubset_iff_of_subset hsub]
          exact ⟨_, hkeyuniv, hkey⟩
        have hinsub : insert (typeKey e.m (getType e.m node.ty) node.requiresNew) seen ⊆
            keyUniverse e.m := Finset.insert_subset hkeyuniv hsub
        have hincard : (insert (typeKey e.m (getType e.m node.ty) node.requiresNew) seen).card =
            seen.card + 1 := Finset.card_insert_of_not_mem hkey
        refine ih _ _ _ hinsub ?_
        have hpr := processProps_snd_length e tr td root node (getType e.m node.ty)
        have hctor : (match (getType e.m node.ty).constructSigRets.head? with
            | some inst => [({ ty := inst, steps := node.steps, requiresNew := true } : BfsNode)]
            | none => []).length ≤ 1 := by
          cases (getType e.m node.ty).constructSigRets.head? <;> simp
        have hmax := props_le_maxEnq e.m node.ty
        rw [hincard]
        simp only [List.length_append, List.length_cons] at hle ⊢
        have hexpand : ((keyUniverse e.m).card - seen.card) * (maxEnq e.m + 1) =
            ((keyUniverse e.m).card - (seen.card + 1)) * (maxEnq e.m + 1) + (maxEnq e.m + 1) := by
          have : (keyUniverse e.m).card - seen.card =
              ((keyUniverse e.m).card - (seen.card + 1)) + 1 := by omega
          rw [this, Nat.add_mul, Nat.one_mul]
        omega

/-- A semantic model for the spec's self-referential example
`type Node = { next: Node }`: the interface type `Node` (type id 0) has a
property `next` whose own type is `Node` again, and a value `node : Node`
is exported. -/
def nodeModel : SemModel where
  syms := [
    { name := "node", decls := [0], valueDecl := some 0, typeOf := 0, declaredType := 0 },
    { name := "next", decls := [1], valueDecl := some 1, typeOf := 0, declaredType := 0 },
    { name := "Node", decls := [2], typeOf := 0, declaredType := 0 }]
  types := [{ symId := some 2, props := [1] }]
  decls := [
    { kind := .variableDecl, file := "/proj/node.ts" },
    { kind := .propertySig, file := "/proj/node.ts", start := 30 },
    { kind := .interfaceDecl, file := "/proj/node.ts", start := 10 }]
  modules := [{ file := "/proj/node.ts", exports := [("node", 0)] }]
  projectDir := "/proj"

def nodeRoot : FoundExportM where
  exportName := "node"
  importKind := "named"
  moduleFile := "/proj/node.ts"
  isTypeOnly := false
  declarationFile := "/proj/node.ts"
  symbol := 0

def nodeEngine : TS where
  m := nodeModel
  allRoots := [nodeRoot]

/-- A model of the legal cyclic initializer chain `export var b = b;`
(symbol 1 / declaration 1, exported from `/proj/a.ts`) alongside a
separate runtime-valued target `t` (symbol 0). -/
def cycDecl1 : DeclR where
  kind := .variableDecl
  file := "/proj/a.ts"
  nameSym := some 1
  varInit := some (.identE (some 1))

def cycModel : SemModel where
  syms := [
    { name := "t", decls := [0], valueDecl := some 0 },
    { name := "b", decls := [1], valueDecl := some 1 }]
  decls := [
    { kind := .functionDecl, file := "/proj/t.ts", nameSym := some 0 },
    cycDecl1]
  modules := [{ file := "/proj/a.ts", exports := [("b", 1)] }]
  projectDir := "/proj"

def cycRoot : FoundExportM where
  exportName := "b"
  moduleFile := "/proj/a.ts"
  declarationFile := "/proj/a.ts"
  symbol := 1

def cycEngine : TS where
  m := cycModel
  allRoots := [cycRoot]

/-- On the cyclic chain `var b = b` the initializer walk never bottoms
out: every recursion budget is exhausted. -/
theorem initializerTargetsSymbol_cyc :
    ∀ fuel : Nat, initializerTargetsSymbol cycModel fuel (.identE (some 1)) 0 = none := by
  intro fuel
  induction fuel with
  | zero => rfl
  | succ f ih =>
    have hstep : initializerTargetsSymbol cycModel (f + 1) (.identE (some 1)) 0 =
        initializerTargetsSymbol cycModel f (.identE (some 1)) 0 := rfl
    rw [hstep, ih]

/-- The divergence reaches `perRoot`: searching the `b` export root for
target `t` never finishes, at any budget. -/
theorem perRoot_cyc (ifuel : Nat) :
    perRoot cycEngine ifuel 0 0 true cycRoot = none := by
  have hdiv : initializerTargetsSymbol cycEngine.m ifuel (.identE (some 1)) 0 = none :=
    initializerTargetsSymbol_cyc ifuel
  unfold perRoot
  rw [show getExportedSymbol cycEngine cycRoot = some 1 from rfl]
  dsimp only [Option.orElse]
  rw [show (getSym cycEngine.m (resolveAlias cycEngine.m 1)).valueDecl = some 1 from rfl]
  dsimp only []
  rw [show sameSymbol cycEngine.m (some (resolveAlias cycEngine.m 1)) (some 0) = false
      from rfl,
    if_neg Bool.false_ne_true,
    show (!true) = false from rfl,
    if_neg Bool.false_ne_true,
    show ((getDecl cycEngine.m 1).kind == DKind.variableDecl) = true from rfl,
    if_pos rfl,
    show (getDecl cycEngine.m 1).varInit = some (.identE (some 1)) from rfl]
  dsimp only []
  rw [hdiv]

/-- The divergence reaches `pathsToOpt`: on the cyclic model, no
initializer budget lets `pathsTo` return a path list for target `t`. -/
theorem pathsToOpt_cyc (ifuel : Nat) :
    pathsToOpt cycEngine ifuel (.symT 0) = none := by
  have hpr := perRoot_cyc ifuel
  unfold pathsToOpt
  dsimp only [toSymbol]
  rw [show (getSym cycEngine.m 0).decls.head? = some 0 from rfl]
  dsimp only []
  rw [show resolveAlias cycEngine.m 0 = 0 from rfl,
    show symbolHasRuntimeValue cycEngine.m 0 = true from rfl,
    if_pos rfl,
    show cycEngine.valueRoots ++ syntheticRoots cycEngine.m 0 0 = [cycRoot] from rfl,
    List.foldlM_cons, hpr]
  rfl

/-- C6 (code bug): the member BFS of `pathsTo` does terminate — the
visited set keyed by `(requiresNew, member-type identity)` bounds it by a
provable fuel (`bfsLoop_isSome`), and the self-referential
`type Node = { next: Node }` model returns the finite result
`["node.next"]` — but `pathsTo` does NOT terminate for every target: the
variable-initializer alias shortcut (`initializerTargetsSymbol` /
`variableDeclInitializerTargets`) follows initializer chains with no
visited set or depth limit, so on the legal cyclic chain `var b = b` it
recurses forever and `pathsTo` never returns, at any recursion budget. -/
theorem c6_bfs_terminates_but_initializer_walk_diverges :
    (∀ (e : TS) (tr td : SymId) (root : FoundExportM) (startNodes : List BfsNode),
      startNodes.length ≤ 2 →
      (bfsLoop e tr td root (bfsFuel e.m) startNodes ∅ []).isSome = true) ∧
    (pathsTo nodeEngine (.symT 1)).map (fun p => p.pretty) = ["node.next"] ∧
    (∀ fuel : Nat, initializerTargetsSymbol cycModel fuel (.identE (some 1)) 0 = none) ∧
    (∀ ifuel : Nat, pathsToOpt cycEngine ifuel (.symT 0) = none) := by
  refine ⟨?_, ?_, initializerTargetsSymbol_cyc, pathsToOpt_cyc⟩
  · intro e tr td root startNodes hlen
    refine bfsLoop_isSome e tr td root (bfsFuel e.m) startNodes ∅ [] (Finset.empty_subset _) ?_
    unfold bfsFuel
    simp only [Finset.card_empty, Nat.sub_zero]
    omega
  · decide

/-! ## C5: root selection and the type-only zero-step invariant -/

theorem toAccessPath_root (e : TS) (root : FoundExportM) (steps : List AccessStepM)
    (rn : Bool) : (toAccessPath e root steps rn).root = root := rfl

theorem toAccessPath_steps (e : TS) (root : FoundExportM) (steps : List AccessStepM)
    (rn : Bool) : (toAccessPath e root steps rn).steps = steps := rfl

/-- Every path `propStep` adds is rooted at the BFS root. -/
theorem propStep_fst_root (e : TS) (tr : SymId) (td : DeclId) (root : FoundExportM)
    (node : BfsNode) (pn : List AccessPathM × List BfsNode) (p : SymId) :
    ∀ q ∈ (propStep e tr td root node pn p).1, q ∈ pn.1 ∨ q.root = root := by
  intro q hq
  unfold propStep at hq
  dsimp only at hq
  split_ifs at hq <;>
    first
      | exact Or.inl hq
      | exact (List.mem_append.mp hq).elim Or.inl
          (fun h => Or.inr (by rw [List.eq_of_mem_singleton h, toAccessPath_root]))

theorem foldl_propStep_fst_root (e : TS) (tr : SymId) (td : DeclId) (root : FoundExportM)
    (node : BfsNode) :
    ∀ (l : List SymId) (pn : List AccessPathM × List BfsNode),
      (∀ q ∈ pn.1, q.root = root) →
      ∀ q ∈ (l.foldl (propStep e tr td root node) pn).1, q.root = root := by
  intro l
  induction l with
  | nil => intro pn hpn; exact hpn
  | cons p rest ih =>
    intro pn hpn
    rw [List.foldl_cons]
    refine ih _ ?_
    intro q hq
    rcases propStep_fst_root e tr td root node pn p q hq with h | h
    · exact hpn q h
    · exact h

theorem processProps_fst_root (e : TS) (tr : SymId) (td : DeclId) (root : FoundExportM)
    (node : BfsNode) (t : TypeM) :
    ∀ q ∈ (processProps e tr td root node t).1, q.root = root := by
  unfold processProps
  exact foldl_propStep_fst_root e tr td root node t.props ([], [])
    (fun q hq => absurd hq (List.not_mem_nil q))

/-- Every path the BFS loop returns beyond its accumulator is rooted at
the BFS root. -/
theorem bfsLoop_root (e : TS) (tr : SymId) (td : DeclId) (root : FoundExportM) :
    ∀ (fuel : Nat) (queue : List BfsNode) (seen : Finset String) (acc out : List AccessPathM),
      (∀ p ∈ acc, p.root = root) →
      bfsLoop e tr td root fuel queue seen acc = some out →
      ∀ p ∈ out, p.root = root := by
  intro fuel
  induction fuel with
  | zero =>
    intro queue seen acc out hacc heq
    cases queue with
    | nil => rw [bfsLoop] at heq; exact (Option.some.inj heq) ▸ hacc
    | cons n rest => rw [bfsLoop] at heq; cases heq
  | succ f ih =>
    intro queue seen acc out hacc heq
    cases queue with
    | nil => rw [bfsLoop] at heq; exact (Option.some.inj heq) ▸ hacc
    | cons node rest =>
      rw [bfsLoop] at heq
      by_cases hkey : typeKey e.m (getType e.m node.ty) node.requiresNew ∈ seen
      · rw [if_pos hkey] at heq
        exact ih rest seen acc out hacc heq
      · rw [if_neg hkey] at heq
        refine ih _ _ _ out ?_ heq
        intro p hp
        rcases List.mem_append.mp hp with h | h
        · exact hacc p h
        · exact processProps_fst_root e tr td root node (getType e.m node.ty) p h

/-- Every path `perRoot` returns is rooted at the searched root. -/
theorem perRoot_root (e : TS) (ifuel : Nat) (tr : SymId) (td : DeclId) (tv : Bool)
    (root : FoundExportM) (ps : List AccessPathM)
    (h : perRoot e ifuel tr td tv root = some ps) :
    ∀ p ∈ ps, p.root = root := by
  unfold perRoot at h
  cases hexp : getExportedSymbol e root with
  | none =>
    rw [hexp] at h
    obtain rfl := Option.some.inj h
    exact fun p hp => absurd hp (List.not_mem_nil p)
  | some expSym =>
    rw [hexp] at h
    dsimp only at h
    split_ifs at h with h1 h2 h3
    · obtain rfl := Option.some.inj h
      intro p hp
      rw [List.eq_of_mem_singleton hp, toAccessPath_root]
    · obtain rfl := Option.some.inj h
      exact fun p hp => absurd hp (List.not_mem_nil p)
    · split at h
      · cases h
      · obtain rfl := Option.some.inj h
        intro p hp
        rw [List.eq_of_mem_singleton hp, toAccessPath_root]
      · exact bfsLoop_root e tr td root (bfsFuel e.m) _ ∅ [] ps
          (fun p hp => absurd hp (List.not_mem_nil p)) h
    · split at h
      · cases h
      · obtain rfl := Option.some.inj h
        intro p hp
        rw [List.eq_of_mem_singleton hp, toAccessPath_root]
      · exact bfsLoop_root e tr td root (bfsFuel e.m) _ ∅ [] ps
          (fun p hp => absurd hp (List.not_mem_nil p)) h

/-- Type-only targets never enter the member BFS: every path `perRoot`
returns for them is a zero-step direct hit. -/
theorem perRoot_typeonly (e : TS) (ifuel : Nat) (tr : SymId) (td : DeclId)
    (root : FoundExportM) (ps : List AccessPathM)
    (h : perRoot e ifuel tr td false root = some ps) :
    ∀ p ∈ ps, p.steps = [] := by
  unfold perRoot at h
  cases hexp : getExportedSymbol e root with
  | none =>
    rw [hexp] at h
    obtain rfl := Option.some.inj h
    exact fun p hp => absurd hp (List.not_mem_nil p)
  | some expSym =>
    rw [hexp] at h
    dsimp only at h
    split_ifs at h with h1 h2 h3
    · obtain rfl := Option.some.inj h
      intro p hp
      rw [List.eq_of_mem_singleton hp, toAccessPath_steps]
    · obtain rfl := Option.some.inj h
      exact fun p hp => absurd hp (List.not_mem_nil p)
    · exact absurd rfl h2
    · exact absurd rfl h2

/-- Provenance of `pathsTo`'s roots fold: every returned path comes from
the accumulator or from one root's `perRoot` search. -/
theorem rootsFold_mem (e : TS) (ifuel : Nat) (tr : SymId) (td : DeclId) (tv : Bool) :
    ∀ (roots : List FoundExportM) (acc paths : List AccessPathM),
      roots.foldlM (fun (acc : List AccessPathM) root =>
        (perRoot e ifuel tr td tv root).map (fun ps => acc ++ ps)) acc = some paths →
      ∀ p ∈ paths, p ∈ acc ∨
        ∃ root ∈ roots, ∃ ps, perRoot e ifuel tr td tv root = some ps ∧ p ∈ ps := by
  intro roots
  induction roots with
  | nil =>
    intro acc paths h p hp
    rw [List.foldlM_nil] at h
    obtain rfl := Option.some.inj h
    exact Or.inl hp
  | cons r rest ih =>
    intro acc paths h p hp
    rw [List.foldlM_cons] at h
    cases hr : perRoot e ifuel tr td tv r with
    | none => rw [hr] at h; cases h
    | some ps =>
      rw [hr] at h
      have h' : rest.foldlM (fun (acc : List AccessPathM) root =>
          (perRoot e ifuel tr td tv root).map (fun ps => acc ++ ps)) (acc ++ ps) =
          some paths := h
      rcases ih (acc ++ ps) paths h' p hp with hmem | ⟨root, hroot, qs, hqs, hq⟩
      · rcases List.mem_append.mp hmem with h1 | h1
        · exact Or.inl h1
        · exact Or.inr ⟨r, List.mem_cons_self r rest, ps, hr, h1⟩
      · exact Or.inr ⟨root, List.mem_cons_of_mem r hroot, qs, hqs, hq⟩

theorem dedupeBy_foldl_subset {α : Type} (key : α → String) :
    ∀ (arr : List α) (pr : List String × List α),
      ∀ x ∈ (arr.foldl (fun (p : List String × List α) item =>
        if p.1.contains (key item) then p
        else (p.1 ++ [key item], p.2 ++ [item])) pr).2, x ∈ pr.2 ∨ x ∈ arr := by
  intro arr
  induction arr with
  | nil => intro pr x hx; exact Or.inl hx
  | cons a rest ih =>
    intro pr x hx
    rw [List.foldl_cons] at hx
    rcases ih _ x hx with h | h
    · by_cases hc : pr.1.contains (key a)
      · rw [if_pos hc] at h
        exact Or.inl h
      · rw [if_neg hc] at h
        rcases List.mem_append.mp h with h1 | h1
        · exact Or.inl h1
        · exact Or.inr (List.eq_of_mem_singleton h1 ▸ List.mem_cons_self a rest)
    · exact Or.inr (List.mem_cons_of_mem a h)

theorem dedupeBy_subset {α : Type} (arr : List α) (key : α → String) :
    ∀ x ∈ dedupeBy arr key, x ∈ arr := by
  intro x hx
  unfold dedupeBy at hx
  rcases dedupeBy_foldl_subset key arr ([], []) x hx with h | h
  · exact absurd h (List.not_mem_nil x)
  · exact h

/-- C5: root selection of `pathsTo` — a runtime-valued target is searched
from the Export Catalog's value roots (plus the synthetic direct-submodule
root), while a type-only target is searched over all export roots but
never traversed into via the member BFS, so each of its paths is a
zero-step direct hit. -/
theorem c5_root_selection (e : TS) (target : Target) (s : SymId) (d : DeclId)
    (hs : toSymbol e.m target = some s)
    (hd : (getSym e.m s).decls.head? = some d) :
    (symbolHasRuntimeValue e.m (resolveAlias e.m s) = false →
      ((pathsTo e target).all fun p => p.steps.isEmpty &&
        decide (p.root ∈ e.allRoots ++ syntheticRoots e.m (resolveAlias e.m s) d)) = true) ∧
    (symbolHasRuntimeValue e.m (resolveAlias e.m s) = true →
      ((pathsTo e target).all fun p =>
        decide (p.root ∈ e.valueRoots ++ syntheticRoots e.m (resolveAlias e.m s) d)) = true) := by
  constructor
  · intro hv
    rw [List.all_eq_true]
    intro p hp
    unfold pathsTo pathsToOpt at hp
    rw [hs] at hp
    dsimp only at hp
    rw [hd] at hp
    dsimp only at hp
    rw [hv] at hp
    rw [if_neg Bool.false_ne_true] at hp
    cases hfold : (e.allRoots ++ syntheticRoots e.m (resolveAlias e.m s) d).foldlM
        (fun (acc : List AccessPathM) root =>
          (perRoot e (e.m.decls.length + 1) (resolveAlias e.m s) d false root).map
            (fun ps => acc ++ ps)) [] with
    | none =>
      rw [hfold] at hp
      simp at hp
    | some paths =>
      rw [hfold] at hp
      dsimp only at hp
      have hmem := dedupeBy_subset paths _ p hp
      rcases rootsFold_mem e (e.m.decls.length + 1) (resolveAlias e.m s) d false _ [] paths
          hfold p hmem with h0 | ⟨root, hroot, ps, hps, hpps⟩
      · exact absurd h0 (List.not_mem_nil p)
      · have hr := perRoot_root e (e.m.decls.length + 1) (resolveAlias e.m s) d false root
          ps hps p hpps
        have hst := perRoot_typeonly e (e.m.decls.length + 1) (resolveAlias e.m s) d root
          ps hps p hpps
        rw [hst, hr]
        simp only [List.isEmpty_nil, Bool.true_and, decide_eq_true_eq]
        exact hroot
  · intro hv
    rw [List.all_eq_true]
    intro p hp
    unfold pathsTo pathsToOpt at hp
    rw [hs] at hp
    dsimp only at hp
    rw [hd] at hp
    dsimp only at hp
    rw [hv] at hp
    rw [if_pos rfl] at hp
    cases hfold : (e.valueRoots ++ syntheticRoots e.m (resolveAlias e.m s) d).foldlM
        (fun (acc : List AccessPathM) root =>
          (perRoot e (e.m.decls.length + 1) (resolveAlias e.m s) d true root).map
            (fun ps => acc ++ ps)) [] with
    | none =>
      rw [hfold] at hp
      simp at hp
    | some paths =>
      rw [hfold] at hp
      dsimp only at hp
      have hmem := dedupeBy_subset paths _ p hp
      rcases rootsFold_mem e (e.m.decls.length + 1) (resolveAlias e.m s) d true _ [] paths
          hfold p hmem with h0 | ⟨root, hroot, ps, hps, hpps⟩
      · exact absurd h0 (List.not_mem_nil p)
      · have hr := perRoot_root e (e.m.decls.length + 1) (resolveAlias e.m s) d true root
          ps hps p hpps
        rw [hr]
        simp only [decide_eq_true_eq]
        exact hroot

theorem c5_root_selection_witness :
    ((pathsTo nodeEngine (.symT 2)).all fun p => p.steps.isEmpty &&
      decide (p.root ∈ nodeEngine.allRoots ++
        syntheticRoots nodeEngine.m (resolveAlias nodeEngine.m 2) 2)) = true :=
  (c5_root_selection nodeEngine (.symT 2) 2 2 rfl rfl).1 (by decide)

/-! ## C10: targets with no symbol or no declaration -/

/-- C10: when no symbol can be derived from the target, or the target
symbol has no declarations at all, both `pathsTo` and `related` return the
empty result rather than an error. -/
theorem c10_missing_symbol_graceful (e : TS) (target : Target) (st : RState)
    (h : toSymbol e.m target = none ∨
      ∃ s, target = .symT s ∧ (getSym e.m s).decls = [] ∧ (getSym e.m s).valueDecl = none) :
    pathsTo e target = [] ∧ (related e.m st target).1 = .ok [] := by
  rcases h with h | ⟨s, rfl, hdecls, hval⟩
  · constructor
    · cases target with
      | symT s => simp [toSymbol] at h
      | declT d =>
        unfold pathsTo pathsToOpt
        rw [h]
        rfl
    · cases target with
      | symT s => simp [toSymbol] at h
      | declT d =>
        unfold related
        dsimp only
        rw [h]
  · constructor
    · unfold pathsTo pathsToOpt
      dsimp only [toSymbol]
      rw [hdecls]
      rfl
    · unfold related
      dsimp only
      rw [hval, hdecls]
      rfl

theorem c10_missing_symbol_graceful_witness :
    pathsTo nodeEngine (.declT 99) = [] ∧
    (related nodeEngine.m {} (.declT 99)).1 = .ok [] :=
  c10_missing_symbol_graceful nodeEngine (.declT 99) {} (Or.inl rfl)

/-! ## C8: global/primitive filtering of related type references -/

/-- A model with two project functions: `f1(): Promise<string>` and
`f2(): Promise<MyType>`, where `Promise` is declared in a stdlib `.d.ts`
outside the project and `MyType` is a project-local interface. -/
def promiseModel : SemModel where
  syms := [
    { name := "f1", decls := [0], valueDecl := some 0 },
    { name := "f2", decls := [1], valueDecl := some 1 },
    { name := "Promise", decls := [2] },
    { name := "MyType", decls := [3] }]
  decls := [
    { kind := .functionDecl, file := "/proj/a.ts", nameSym := some 0, fnHasSig := true,
      fnReturnAnn := some (.typeRef (some 2) [.keywordT]) },
    { kind := .functionDecl, file := "/proj/a.ts", start := 60, nameSym := some 1,
      fnHasSig := true,
      fnReturnAnn := some (.typeRef (some 2) [.typeRef (some 3) []]) },
    { kind := .interfaceDecl, file := "/lib/lib.es5.d.ts" },
    { kind := .interfaceDecl, file := "/proj/types.ts", line := 3, column := 5 }]
  declarationFiles := ["/lib/lib.es5.d.ts"]
  projectDir := "/proj"

/-- C8: `related` on a function returning `Promise<string>` yields no
items (both `Promise` and the primitive are filtered as
globals/primitives), and on a function returning `Promise<MyType>` it
yields exactly the project-local `MyType`. -/
theorem c8_promise_filter :
    (related promiseModel {} (.symT 0)).1 = .ok [] ∧
    (related promiseModel {} (.symT 1)).1 =
      .ok [{ symbol := 3, file := some "/proj/types.ts",
             line := some 3, column := some 5 }] := by
  constructor
  · rfl
  · rfl

/-! ## C1: the relatedCallStack leak -/

/-- A model with a project-local type alias `type MyAlias = Other` whose
`related` result is nonempty. -/
def aliasModel : SemModel where
  syms := [
    { name := "MyAlias", decls := [0] },
    { name := "Other", decls := [1] }]
  decls := [
    { kind := .typeAlias, file := "/proj/t.ts",
      aliasType := some (.typeRef (some 1) []) },
    { kind := .interfaceDecl, file := "/proj/t.ts", start := 40, line := 2, column := 1 }]
  projectDir := "/proj"

/-- C1: the recursion-tracking state is NOT call-scoped — `related` pushes
the target's cycle key onto the instance-level `relatedCallStack` and its
type-alias branch returns without removing it, so a second identical call
on the same engine instance sees its own key as an in-progress cycle and
returns the empty list instead of the first call's nonempty result. -/
theorem c1_related_stack_leak :
    (related aliasModel {} (.symT 0)).1 =
      .ok [{ symbol := 1, file := some "/proj/t.ts", line := some 2, column := some 1 }] ∧
    (related aliasModel (related aliasModel {} (.symT 0)).2 (.symT 0)).1 = .ok [] ∧
    (related aliasModel {} (.symT 0)).1 ≠
      (related aliasModel (related aliasModel {} (.symT 0)).2 (.symT 0)).1 := by
  refine ⟨rfl, rfl, ?_⟩
  intro h
  rw [show (related aliasModel {} (.symT 0)).1 =
        .ok [{ symbol := 1, file := some "/proj/t.ts", line := some 2, column := some 1 }]
        from rfl,
      show (related aliasModel (related aliasModel {} (.symT 0)).2 (.symT 0)).1 = .ok []
        from rfl] at h
  cases h

/-! ## C9: the value-walk depth guard and the state it leaves behind -/

deriving instance DecidableEq for Except

/-- `n` nested parenthesized expressions around `this`. -/
def nestParen : Nat → ExprM
  | 0 => .thisE
  | n + 1 => .parenE (nestParen n)

theorem vVisit_nestParen_overflow (m : SemModel) :
    ∀ (k : Nat) (st : VWSt), st.depth + k = maxRecursionDepth + 1 → 1 ≤ k →
    vVisit m (nestParen k) st = .error
      ("Stack overflow prevented in symbolsFromValueExprDeep at depth " ++
        toString (maxRecursionDepth + 1)) := by
  intro k
  induction k with
  | zero => intro st h h1; omega
  | succ j ih =>
    intro st h _
    rw [nestParen, vVisit]
    dsimp only
    by_cases hg : st.depth + 1 > maxRecursionDepth
    · rw [if_pos hg]
      have hd : st.depth + 1 = maxRecursionDepth + 1 := by omega
      rw [hd]
    · rw [if_neg hg]
      refine ih { st with depth := st.depth + 1 } ?_ ?_
      · show st.depth + 1 + j = maxRecursionDepth + 1
        omega
      · omega

/-- A project variable declaration `const v = <init>`. -/
def varInitDecl (init : ExprM) : DeclR where
  kind := .variableDecl
  file := "/proj/v.ts"
  nameSym := some 0
  varInit := some init

def varModelE (init : ExprM) : SemModel where
  syms := [{ name := "v", decls := [0], valueDecl := some 0 }]
  decls := [varInitDecl init]
  projectDir := "/proj"

/-- `related` on the variable target propagates the value-walk's error
and leaves the declaration's cycle key on the instance stack. -/
theorem related_varModelE_error (init : ExprM) (msg : String)
    (h : symbolsFromValueExprDeep (varModelE init) init = .error msg) :
    related (varModelE init) {} (.symT 0) =
      (.error msg, { relatedCallStack := some [declKeyOf (varModelE init) 0] }) := by
  have ev : (getSym (varModelE init) 0).valueDecl = some 0 := rfl
  have evi : (getDecl (varModelE init) 0).varInit = some init := rfl
  unfold related
  dsimp only [Option.orElse, Option.getD]
  rw [ev]
  dsimp only []
  rw [evi]
  dsimp only []
  split_ifs with h1 h2 h3 h4 h5 h6 h7 h8
  · exact nomatch h1
  · exact nomatch h2
  · exact nomatch h3
  · exact nomatch h4
  · exact nomatch h5
  · exact nomatch h5
  · rw [h]
  · exact absurd rfl h7
  · exact absurd rfl h7

/-- C9: the depth guard of the value-expression walk aborts the single
call with a clear diagnostic, but the failure DOES corrupt shared engine
state — the cycle key pushed before the walk is never removed on the
error path, so a subsequent identical call on the same engine instance
returns `.ok []` instead of behaving as if the failed call had never
happened. -/
theorem c9_depth_guard_not_isolated :
    (related (varModelE (nestParen 501)) {} (.symT 0)).1 =
      .error "Stack overflow prevented in symbolsFromValueExprDeep at depth 501" ∧
    (related (varModelE (nestParen 501))
        (related (varModelE (nestParen 501)) {} (.symT 0)).2 (.symT 0)).1 = .ok [] ∧
    (related (varModelE (nestParen 501))
        (related (varModelE (nestParen 501)) {} (.symT 0)).2 (.symT 0)).1 ≠
      (related (varModelE (nestParen 501)) {} (.symT 0)).1 := by
  have hval : symbolsFromValueExprDeep (varModelE (nestParen 501)) (nestParen 501) =
      .error ("Stack overflow prevented in symbolsFromValueExprDeep at depth " ++
        toString (maxRecursionDepth + 1)) := by
    unfold symbolsFromValueExprDeep
    rw [vVisit_nestParen_overflow _ 501 {} (by decide) (by omega)]
  have hrel := related_varModelE_error (nestParen 501) _ hval
  refine ⟨?_, ?_, ?_⟩
  · rw [hrel]
    decide
  · rw [hrel]
    decide
  · rw [hrel]
    decide

/-! ## C7: ranking -/

def deepEntryFile : String :=
  "/proj/a/a/a/a/a/a/a/a/a/a/a/a/a/a/a/a/a/a/a/a/a/a/a/a/a/index.ts"

def rootEntryDeep : FoundExportM where
  exportName := "foo"
  moduleFile := deepEntryFile
  declarationFile := deepEntryFile

def pEntryDeep : AccessPathM where
  root := rootEntryDeep
  steps := [.instanceS "bar", .callS "create"]
  pretty := "foo.bar.create(...)"

def rootInternal : FoundExportM where
  exportName := "internal"
  moduleFile := "/proj/internal.ts"
  declarationFile := "/proj/internal.ts"

def pInternal : AccessPathM where
  root := rootInternal
  steps := [.instanceS "_client", .callS "create"]
  pretty := "internal._client.create(...)"

def rankEngine : TS where
  m := { projectDir := "/proj" }

/-- C7 counterexample: `looksLikeEntrypoint` accepts ANY `…/index.ts`, so
a deeply nested `index.ts` root collects the 50-point entrypoint bonus but
a larger folder-depth penalty; with default options the entrypoint path
`foo.bar.create(...)` scores 68 while the privacy-marked
`internal._client.create(...)` scores 72 and is ranked first. -/
theorem c7_counterexample :
    scorePath rankEngine none pInternal > scorePath rankEngine none pEntryDeep ∧
    (rankPaths rankEngine [pEntryDeep, pInternal] none).map (fun r => r.pretty) =
      ["internal._client.create(...)", "foo.bar.create(...)"] := by
  constructor
  · decide
  · decide

def rootEntry : FoundExportM where
  exportName := "foo"
  moduleFile := "/proj/index.ts"
  declarationFile := "/proj/index.ts"

def pEntry : AccessPathM where
  root := rootEntry
  steps := [.instanceS "bar", .callS "create"]
  pretty := "foo.bar.create(...)"

/-- The score gap behind the amended C7: a package-root `index.ts`
entrypoint path strictly outscores the `_client` internal path under every
option set that does not list the internal file as an entrypoint. -/
theorem c7_score_gap (opts : RankOptionsM)
    (h : opts.entrypoints.contains "/proj/internal.ts" = false) :
    scorePath rankEngine (some opts) pEntry > scorePath rankEngine (some opts) pInternal := by
  have e1 : (List.filter (fun s => !s.isCall) pEntry.steps).length = 1 := rfl
  have e2 : (List.filter (fun s =>
      strStartsWith s.memberName "_" || strStartsWith s.memberName "#") pEntry.steps).length =
      0 := rfl
  have e3 : List.any pEntry.steps (fun s => s.memberName == "_client") = false := rfl
  have e4 : projectRelM rankEngine.m.projectDir pEntry.root.moduleFile = "index.ts" := rfl
  have e5 : looksLikeEntrypoint "index.ts" = true := rfl
  have e6 : (splitOnSlash "index.ts").length = 1 := rfl
  have e8 : getExportedSymbol rankEngine pEntry.root = none := rfl
  have i1 : (List.filter (fun s => !s.isCall) pInternal.steps).length = 1 := rfl
  have i2 : (List.filter (fun s =>
      strStartsWith s.memberName "_" || strStartsWith s.memberName "#") pInternal.steps).length =
      1 := rfl
  have i3 : List.any pInternal.steps (fun s => s.memberName == "_client") = true := rfl
  have i4 : projectRelM rankEngine.m.projectDir pInternal.root.moduleFile = "internal.ts" := rfl
  have i5 : looksLikeEntrypoint "internal.ts" = false := rfl
  have i6 : (splitOnSlash "internal.ts").length = 1 := rfl
  have i8 : getExportedSymbol rankEngine pInternal.root = none := rfl
  have d1 : (pEntry.root.exportName == "default") = false := rfl
  have d2 : (pInternal.root.exportName == "default") = false := rfl
  have d3 : (pEntry.root.importKind == "namespace") = false := rfl
  have d4 : (pInternal.root.importKind == "namespace") = false := rfl
  have h' : opts.entrypoints.contains pInternal.root.moduleFile = false := h
  unfold scorePath
  dsimp only [Option.map, Option.getD, Option.bind]
  rw [e1, e2, e3, e4, e5, e6, e8, i1, i2, i3, i4, i5, i6, i8, d1, d2, d3, d4, h']
  dsimp only []
  simp only [Bool.or_true, Bool.or_false, Bool.and_true, Bool.and_false,
    Bool.false_eq_true, if_false, if_true]
  split_ifs <;> omega

/-- The scored entry `rankPaths` builds for each path. -/
def scoredOf (e : TS) (opts : Option RankOptionsM) (p : AccessPathM) : RankedPathM :=
  { root := p.root, requiresNew := p.requiresNew, steps := p.steps,
    pretty := p.pretty, score := scorePath e opts p }

/-- C7 (amended): for the package-root entrypoint path `foo.bar.create(...)`
(rooted at `/proj/index.ts`) against the internal `_client` path, ranking
places the entrypoint path first with a strictly higher score under every
option set that does not list the internal file as an entrypoint; and in
general `rankPaths` returns a list sorted by descending score with ties
broken by shorter pretty string. -/
theorem c7_entrypoint_ranking (opts : RankOptionsM)
    (h : opts.entrypoints.contains "/proj/internal.ts" = false) :
    scorePath rankEngine (some opts) pEntry > scorePath rankEngine (some opts) pInternal ∧
    (rankPaths rankEngine [pInternal, pEntry] (some opts)).map (fun r => r.pretty) =
      ["foo.bar.create(...)", "internal._client.create(...)"] ∧
    ∀ (e : TS) (ps : List AccessPathM) (o : Option RankOptionsM),
      List.Sorted rankLe (rankPaths e ps o) := by
  have hgap := c7_score_gap opts h
  have hstep : rankPaths rankEngine [pInternal, pEntry] (some opts) =
      if rankLe (scoredOf rankEngine (some opts) pInternal)
          (scoredOf rankEngine (some opts) pEntry) then
        [scoredOf rankEngine (some opts) pInternal, scoredOf rankEngine (some opts) pEntry]
      else
        [scoredOf rankEngine (some opts) pEntry, scoredOf rankEngine (some opts) pInternal] :=
    rfl
  have hnot : ¬ rankLe (scoredOf rankEngine (some opts) pInternal)
      (scoredOf rankEngine (some opts) pEntry) := by
    intro hc
    dsimp only [scoredOf] at hc
    rcases hc with hgt | ⟨heq, _⟩
    · exact absurd (show scorePath rankEngine (some opts) pInternal >
        scorePath rankEngine (some opts) pEntry from hgt) (not_lt.mpr (le_of_lt hgap))
    · have heq' : scorePath rankEngine (some opts) pInternal =
        scorePath rankEngine (some opts) pEntry := heq
      exact absurd (heq' ▸ hgap) (lt_irrefl _)
  refine ⟨hgap, ?_, ?_⟩
  · rw [hstep, if_neg hnot]
    rfl
  · intro e ps o
    unfold rankPaths
    exact List.sorted_insertionSort rankLe _

theorem c7_entrypoint_ranking_witness :
    scorePath rankEngine (some {}) pEntry > scorePath rankEngine (some {}) pInternal ∧
    (rankPaths rankEngine [pInternal, pEntry] (some {})).map (fun r => r.pretty) =
      ["foo.bar.create(...)", "internal._client.create(...)"] ∧
    List.Sorted rankLe (rankPaths rankEngine [pInternal, pEntry] (some {})) := by
  obtain ⟨h1, h2, h3⟩ := c7_entrypoint_ranking {} rfl
  exact ⟨h1, h2, h3 rankEngine [pInternal, pEntry] (some {})⟩

end Spec2Proof
